import Mathlib

/-!
Verification of the core of `Main.c` from the Shortest-Path-Finding-Visualization
repository: a Dijkstra-style single-pair shortest-path search over a fixed
20×15 grid (`dijkstra_find_path`), and the orchestration loop in `handle_click`
that runs it up to `K_PATHS` times, blocking the interior cells of each found
path before the next search.

The embedding models the C global state (`grid`, `grid_path_type`, `start`,
`end`, the three flags) as a `ProgState` record whose grids are total maps
`Int → Int → CellType`; behaviour at in-bounds indices mirrors the C arrays.
The priority "queue" is a list with the same linear-scan extract-min and
swap-with-last removal as the C array, and the main loop is expressed through
a single step function `dstep` iterated with fuel (the fuel is proved
sufficient for every state the theorems quantify over).
-/

set_option maxHeartbeats 1600000

namespace SPV

/-- Cell classification, mirroring the `CellType` enum of Main.c. -/
inductive CellType where
  | CELL_EMPTY
  | CELL_WALL
  | CELL_START
  | CELL_END
  | CELL_PATH_1
  | CELL_PATH_2
  | CELL_PATH_3
  | CELL_PATH_4
  | CELL_PATH_5
deriving DecidableEq, Repr

open CellType

/-- Integer coordinate pair, mirroring `struct Point`. -/
structure Point where
  x : Int
  y : Int
deriving DecidableEq, Repr

/-- Priority-queue entry, mirroring `struct Node`. -/
structure Node where
  pos : Point
  cost : Nat
deriving DecidableEq, Repr

instance : Inhabited Node := ⟨⟨⟨0, 0⟩, 0⟩⟩

/-- A computed path, mirroring `struct Path` (`points`, `length`, `cost`). -/
structure Path where
  points : List Point
  length : Int
  cost : Int
deriving DecidableEq, Repr

def GRID_WIDTH : Int := 20
def GRID_HEIGHT : Int := 15
def CELL_SIZE : Int := 40
def K_PATHS : Nat := 5

/-- `INT_MAX` of the C `int` type, used as the "infinity" sentinel in `dist`. -/
def INT_MAX : Nat := 2147483647

/-- The global mutable state of Main.c: the two cell grids and the
start/end designation data. -/
structure ProgState where
  grid : Int → Int → CellType
  gridPathType : Int → Int → CellType
  start : Point
  end_ : Point
  start_selected : Bool
  end_selected : Bool
  paths_found_and_drawn : Bool

/-- Mirrors `is_valid_position`: in bounds, not a wall, and not consumed by a
previously found path. -/
def is_valid_position (s : ProgState) (x y : Int) : Bool :=
  decide (0 ≤ x) && decide (x < GRID_WIDTH) && decide (0 ≤ y) && decide (y < GRID_HEIGHT) &&
  decide (s.grid x y ≠ CELL_WALL) && decide (s.gridPathType x y = CELL_EMPTY)

/-- Search-local state of one `dijkstra_find_path` call: the `dist`, `visited`
and `parent` arrays and the pending node array `nodes`. -/
structure SearchState where
  dist : Point → Nat
  visited : Point → Bool
  par : Point → Point
  nodes : List Node

def updN (f : Point → Nat) (p : Point) (v : Nat) : Point → Nat :=
  fun q => if q = p then v else f q

def updB (f : Point → Bool) (p : Point) (v : Bool) : Point → Bool :=
  fun q => if q = p then v else f q

def updP (f : Point → Point) (p : Point) (v : Point) : Point → Point :=
  fun q => if q = p then v else f q

/-- The four axial directions, in the order of the `dx`/`dy` arrays of Main.c. -/
def dirs : List (Int × Int) := [(0, -1), (1, 0), (0, 1), (-1, 0)]

/-- Linear scan for the index of the (first) minimum-cost node, mirroring the
`for` loop that computes `min_index`. `bc`/`bi` are the best cost and index so
far, `i` the index of the head of the remaining list. -/
def min_idx_go : List Node → Nat → Nat → Nat → Nat
  | [], _, bi, _ => bi
  | e :: rest, bc, bi, i =>
    if e.cost < bc then min_idx_go rest e.cost i (i + 1)
    else min_idx_go rest bc bi (i + 1)

def find_min_index : List Node → Nat
  | [] => 0
  | e :: rest => min_idx_go rest e.cost 0 1

/-- Mirrors `nodes[min_index] = nodes[--node_count]`: overwrite slot `i` with
the last element, then drop the last slot. -/
def remove_swap (l : List Node) (i : Nat) : List Node :=
  match l.getLast? with
  | none => []
  | some b => (l.set i b).dropLast

/-- Extract-min on the node array: returns the minimum node and the array
with that slot removed (by the swap-with-last scheme of Main.c). -/
def pop_min (l : List Node) : Option (Node × List Node) :=
  match l with
  | [] => none
  | _ :: _ => some (l.getD (find_min_index l) default, remove_swap l (find_min_index l))

/-- One neighbour relaxation, mirroring the body of the `for (i = 0; i < 4; ...)`
loop: the end cell is always a legal target, otherwise `is_valid_position`
must hold; visited cells are skipped; a strict improvement updates `dist` and
`parent` and appends a new node. -/
def relax_dir (s : ProgState) (c : Point) (st : SearchState) (d : Int × Int) : SearchState :=
  let nx := c.x + d.1
  let ny := c.y + d.2
  let q : Point := ⟨nx, ny⟩
  let is_neighbor_end : Bool := decide (nx = s.end_.x) && decide (ny = s.end_.y)
  if !is_neighbor_end && !(is_valid_position s nx ny) then st
  else if st.visited q then st
  else
    let new_cost := st.dist c + 1
    if new_cost < st.dist q then
      { dist := updN st.dist q new_cost
        visited := st.visited
        par := updP st.par q c
        nodes := st.nodes ++ [⟨q, new_cost⟩] }
    else st

/-- Relax the four neighbours of `c` in the order of Main.c. -/
def expand (s : ProgState) (c : Point) (st : SearchState) : SearchState :=
  dirs.foldl (relax_dir s c) st

/-- One iteration of the `while (node_count > 0)` loop.  `Sum.inl` continues
with the next state; `Sum.inr (some cur, st)` is the successful break at the
end cell; `Sum.inr (none, st)` is queue exhaustion. -/
def dstep (s : ProgState) (st : SearchState) : SearchState ⊕ (Option Node × SearchState) :=
  match pop_min st.nodes with
  | none => Sum.inr (none, st)
  | some (cur, rest) =>
    let st1 : SearchState := { st with nodes := rest }
    if st1.visited cur.pos then Sum.inl st1
    else
      let st2 : SearchState := { st1 with visited := updB st1.visited cur.pos true }
      if cur.pos = s.end_ then Sum.inr (some cur, st2)
      else Sum.inl (expand s cur.pos st2)

/-- Fuel bound for the main loop; proved sufficient for every initial state the
theorems consider (at most `20*15 + 2` cells can ever be enqueued, each once). -/
def search_fuel : Nat := 1000

def dloop (s : ProgState) : Nat → SearchState → Option Node × SearchState
  | 0, st => (none, st)
  | fuel + 1, st =>
    match dstep s st with
    | Sum.inl st' => dloop s fuel st'
    | Sum.inr r => r

/-- The search state right after the initialisation section of
`dijkstra_find_path`: all distances `INT_MAX` except the start (0), no cell
visited, all parents `(-1,-1)`, and the single seed node. -/
def init_state (src : Point) : SearchState :=
  { dist := fun p => if p = src then 0 else INT_MAX
    visited := fun _ => false
    par := fun _ => ⟨-1, -1⟩
    nodes := [⟨src, 0⟩] }

/-- The reconstruction loop: follow parent pointers from the end cell,
collecting cells (in end→start order) until the start is reached or a
`(-1, _)`/`(_, -1)` coordinate stops the walk. -/
def walk_parents (par : Point → Point) (src : Point) : Nat → Point → List Point → List Point
  | 0, _, acc => acc
  | fuel + 1, at_, acc =>
    if at_.x = -1 ∨ at_.y = -1 then acc
    else
      let acc' := acc ++ [at_]
      if at_ = src then acc'
      else walk_parents par src fuel (par at_) acc'

/-- Mirrors `dijkstra_find_path`.  Note the exact source-validity pre-check of
the C code: when the start is invalid the search still proceeds in the special
case where the end is invalid *and* carries a path label; otherwise it fails
with `cost = -1, length = 0`. -/
def dijkstra_find_path (s : ProgState) : Path :=
  if !(is_valid_position s s.start.x s.start.y) &&
     !(!(is_valid_position s s.end_.x s.end_.y) &&
       decide (s.gridPathType s.end_.x s.end_.y ≠ CELL_EMPTY)) then
    ⟨[], 0, -1⟩
  else
    match dloop s search_fuel (init_state s.start) with
    | (none, _) => ⟨[], 0, -1⟩
    | (some cur, stf) =>
      let rev := walk_parents stf.par s.start search_fuel s.end_ []
      { points := rev.reverse, length := (rev.length : Int), cost := (cur.cost : Int) }

/-- The `switch (i)` assigning `CELL_PATH_1 .. CELL_PATH_5` to iteration `i`. -/
def path_type_for (i : Nat) : CellType :=
  match i with
  | 0 => CELL_PATH_1
  | 1 => CELL_PATH_2
  | 2 => CELL_PATH_3
  | 3 => CELL_PATH_4
  | 4 => CELL_PATH_5
  | _ => CELL_EMPTY

def upd2 (g : Int → Int → CellType) (p : Point) (t : CellType) : Int → Int → CellType :=
  fun x y => if x = p.x ∧ y = p.y then t else g x y

/-- One step of the marking loop in `handle_click`: start and end cells are
skipped, every other path point gets the current path type. -/
def mark_cell (st en : Point) (t : CellType) (g : Int → Int → CellType) (p : Point) :
    Int → Int → CellType :=
  if p = st ∨ p = en then g else upd2 g p t

/-- Mark all interior points of a found path with cell type `t`. -/
def mark_state (s : ProgState) (t : CellType) (pts : List Point) : ProgState :=
  { s with gridPathType := pts.foldl (mark_cell s.start s.end_ t) s.gridPathType }

/-- The `for (i = 0; i < K_PATHS; i++)` loop of `handle_click`: run the search,
stop at the first `cost == -1`, otherwise record the path and mark its interior
cells.  `rem` is the number of remaining iterations, `i` the C loop index. -/
def run_paths : Nat → Nat → ProgState → ProgState × List Path
  | 0, _, s => (s, [])
  | rem + 1, i, s =>
    let path := dijkstra_find_path s
    if path.cost = -1 then (s, [])
    else
      let r := run_paths rem (i + 1) (mark_state s (path_type_for i) path.points)
      (r.1, path :: r.2)

def inBoundsXY (x y : Int) : Bool :=
  decide (0 ≤ x) && decide (x < GRID_WIDTH) && decide (0 ≤ y) && decide (y < GRID_HEIGHT)

def inBoundsPt (p : Point) : Bool := inBoundsXY p.x p.y

/-- Mirrors `handle_click` after the pixel→cell conversion, returning the new
state together with the list of paths found (empty when no search ran). -/
def handle_click_grid (s : ProgState) (gp : Point) : ProgState × List Path :=
  if gp.x < 0 ∨ gp.x ≥ GRID_WIDTH ∨ gp.y < 0 ∨ gp.y ≥ GRID_HEIGHT then (s, [])
  else if s.paths_found_and_drawn then (s, [])
  else if s.grid gp.x gp.y = CELL_WALL then (s, [])
  else if !s.start_selected then
    ({ s with start := gp, grid := upd2 s.grid gp CELL_START, start_selected := true }, [])
  else if !s.end_selected then
    if gp = s.start then (s, [])
    else
      run_paths K_PATHS 0
        { s with end_ := gp, grid := upd2 s.grid gp CELL_END, end_selected := true,
                 paths_found_and_drawn := true }
  else (s, [])

/-- Mirrors `screen_to_grid` (C integer division truncates toward zero). -/
def screen_to_grid (sx sy : Int) : Point := ⟨Int.tdiv sx CELL_SIZE, Int.tdiv sy CELL_SIZE⟩

def handle_click (s : ProgState) (sx sy : Int) : ProgState × List Path :=
  handle_click_grid s (screen_to_grid sx sy)

/-- Mirrors `initialize_grid`, with the random wall mask abstracted into the
boolean predicate `walls` (the core only consumes the resulting mask). -/
def initialize_grid (walls : Int → Int → Bool) : ProgState :=
  { grid := fun x y =>
      if inBoundsXY x y then (if walls x y then CELL_WALL else CELL_EMPTY) else CELL_EMPTY
    gridPathType := fun _ _ => CELL_EMPTY
    start := ⟨-1, -1⟩
    end_ := ⟨-1, -1⟩
    start_selected := false
    end_selected := false
    paths_found_and_drawn := false }

/-- Mirrors `reset_grid`: walls preserved, everything else (including all path
labels and the endpoint designations) cleared. -/
def reset_grid (s : ProgState) : ProgState :=
  { grid := fun x y =>
      if inBoundsXY x y then (if s.grid x y = CELL_WALL then CELL_WALL else CELL_EMPTY)
      else s.grid x y
    gridPathType := fun x y => if inBoundsXY x y then CELL_EMPTY else s.gridPathType x y
    start := ⟨-1, -1⟩
    end_ := ⟨-1, -1⟩
    start_selected := false
    end_selected := false
    paths_found_and_drawn := false }

/-- States reachable through the public interface: initialisation (with any
wall mask, covering both program start and the 'R' key), grid clicks, and the
'C' key reset. -/
inductive Reachable : ProgState → Prop
  | init (walls : Int → Int → Bool) : Reachable (initialize_grid walls)
  | click (s : ProgState) (p : Point) : Reachable s → Reachable (handle_click_grid s p).1
  | reset (s : ProgState) : Reachable s → Reachable (reset_grid s)

/-! ### Specification-level notions used by the claims -/

/-- `validPt s p`: the cell at `p` is a legal (non-end) cell for a search. -/
def validPt (s : ProgState) (p : Point) : Prop := is_valid_position s p.x p.y = true

instance (s : ProgState) (p : Point) : Decidable (validPt s p) :=
  inferInstanceAs (Decidable (is_valid_position s p.x p.y = true))

/-- Two points differ by exactly one unit in exactly one axis. -/
def adjacent (a b : Point) : Prop :=
  (b.x = a.x ∧ (b.y = a.y + 1 ∨ b.y = a.y - 1)) ∨
  (b.y = a.y ∧ (b.x = a.x + 1 ∨ b.x = a.x - 1))

instance (a b : Point) : Decidable (adjacent a b) :=
  inferInstanceAs (Decidable
    ((b.x = a.x ∧ (b.y = a.y + 1 ∨ b.y = a.y - 1)) ∨
     (b.y = a.y ∧ (b.x = a.x + 1 ∨ b.x = a.x - 1))))

/-- A legal search step from `c` to `q`: axially adjacent, and the target cell
is the end cell (always legal) or a valid position. -/
def stepOk (s : ProgState) (c q : Point) : Prop :=
  adjacent c q ∧ (q = s.end_ ∨ validPt s q)

/-- `ReachN s n p`: there is a 4-connected walk of `n` steps from the start to
`p` whose cells after the start are each the end cell or valid positions. -/
inductive ReachN (s : ProgState) : Nat → Point → Prop
  | base : ReachN s 0 s.start
  | step {n : Nat} {c q : Point} : ReachN s n c → stepOk s c q → ReachN s (n + 1) q

/-- A source-to-sink path as described by the specification: starts at the
start cell, ends at the end cell, consecutive points axially adjacent, and
every cell on it is the end cell or a valid position. -/
def okPath (s : ProgState) (l : List Point) : Prop :=
  l.head? = some s.start ∧ l.getLast? = some s.end_ ∧ List.Chain' adjacent l ∧
  ∀ p ∈ l, p = s.end_ ∨ validPt s p

/-- The finset of all in-bounds grid points (20 × 15 = 300 cells). -/
def boundsFinset : Finset Point :=
  ((Finset.Icc (0 : Int) (GRID_WIDTH - 1)) ×ˢ (Finset.Icc (0 : Int) (GRID_HEIGHT - 1))).image
    (fun q => ⟨q.1, q.2⟩)

/-- The in-bounds cells that are valid positions in state `s`. -/
def validFinset (s : ProgState) : Finset Point :=
  boundsFinset.filter (fun p => validPt s p)

/-- Every cell that can ever be enqueued during one search: the start, the
end, and the valid cells. -/
def uSet (s : ProgState) : Finset Point :=
  insert s.start (insert s.end_ (validFinset s))

/-- Number of visited cells (among the enqueueable ones). -/
def visCount (s : ProgState) (st : SearchState) : Nat :=
  ((uSet s).filter (fun p => st.visited p = true)).card

/-- Termination measure of the main loop: queue length plus twice the number
of never-enqueued enqueueable cells. -/
def smeasure (s : ProgState) (st : SearchState) : Nat :=
  st.nodes.length + 2 * ((uSet s).filter (fun p => ¬ st.dist p < INT_MAX)).card

/-- The loop invariant of `dijkstra_find_path`'s main loop.  `dist p < INT_MAX`
means "`p` has been enqueued (with its final tentative distance)". -/
structure Inv (s : ProgState) (st : SearchState) : Prop where
  dist_src : st.dist s.start = 0
  entries_dist : ∀ e ∈ st.nodes, st.dist e.pos = e.cost
  entries_fresh : ∀ e ∈ st.nodes, st.visited e.pos = false
  nodup : (st.nodes.map Node.pos).Nodup
  pushed_in : ∀ p, st.dist p < INT_MAX → p ∈ uSet s
  visited_pushed : ∀ p, st.visited p = true → st.dist p < INT_MAX
  fresh_in_queue : ∀ p, st.dist p < INT_MAX → st.visited p = false → ∃ e ∈ st.nodes, e.pos = p
  dist_reach : ∀ p, st.dist p < INT_MAX → ReachN s (st.dist p) p
  visited_min : ∀ p, st.visited p = true → ∀ n, ReachN s n p → st.dist p ≤ n
  relaxed : ∀ p q, st.visited p = true → stepOk s p q → st.visited q = false →
    st.dist q ≤ st.dist p + 1
  band : ∃ m, (∀ p, st.visited p = true → st.dist p ≤ m) ∧
    (∀ e ∈ st.nodes, m ≤ e.cost ∧ e.cost ≤ m + 1) ∧ m ≤ visCount s st
  sink_unvisited : st.visited s.end_ = false
  parent_ok : ∀ p, st.dist p < INT_MAX → p ≠ s.start →
    stepOk s (st.par p) p ∧ st.dist (st.par p) + 1 = st.dist p ∧
    st.visited (st.par p) = true ∧ st.dist (st.par p) < INT_MAX

/-- Mid-expansion variant of `Inv.relaxed`: the edges out of the just-visited
cell `c` whose directions are still in `rem` may be unprocessed. -/
def RelaxInv (s : ProgState) (c : Point) (rem : List (Int × Int)) (st : SearchState) : Prop :=
  ∀ p q, st.visited p = true → stepOk s p q → st.visited q = false →
    st.dist q ≤ st.dist p + 1 ∨ (p = c ∧ ∃ d ∈ rem, q = ⟨c.x + d.1, c.y + d.2⟩)

/-- Search states reachable inside one run of the main loop of
`dijkstra_find_path` started from `init_state`. -/
def SearchReach (s : ProgState) (st : SearchState) : Prop :=
  Relation.ReflTransGen (fun a b => dstep s a = Sum.inl b) (init_state s.start) st

/-- The state right after a fresh pop of `e` (before any expansion):
queue replaced by the remainder, popped cell marked visited. -/
def popState (st : SearchState) (e : Node) (r : List Node) : SearchState :=
  { dist := st.dist, visited := updB st.visited e.pos true, par := st.par, nodes := r }

/-- The invariant during the expansion of the just-visited cell `c`, with the
direction list `rem` still to process.  The band of tentative costs is anchored
at `st.dist c` (the cost of the last pop, the maximum over all visited cells). -/
structure InvMid (s : ProgState) (c : Point) (rem : List (Int × Int)) (st : SearchState) :
    Prop where
  dist_src : st.dist s.start = 0
  entries_dist : ∀ e ∈ st.nodes, st.dist e.pos = e.cost
  entries_fresh : ∀ e ∈ st.nodes, st.visited e.pos = false
  nodup : (st.nodes.map Node.pos).Nodup
  pushed_in : ∀ p, st.dist p < INT_MAX → p ∈ uSet s
  visited_pushed : ∀ p, st.visited p = true → st.dist p < INT_MAX
  fresh_in_queue : ∀ p, st.dist p < INT_MAX → st.visited p = false → ∃ e ∈ st.nodes, e.pos = p
  dist_reach : ∀ p, st.dist p < INT_MAX → ReachN s (st.dist p) p
  visited_min : ∀ p, st.visited p = true → ∀ n, ReachN s n p → st.dist p ≤ n
  relaxMid : RelaxInv s c rem st
  sink_unvisited : st.visited s.end_ = false
  parent_ok : ∀ p, st.dist p < INT_MAX → p ≠ s.start →
    stepOk s (st.par p) p ∧ st.dist (st.par p) + 1 = st.dist p ∧
    st.visited (st.par p) = true ∧ st.dist (st.par p) < INT_MAX
  cvis : st.visited c = true
  cpushed : st.dist c < INT_MAX
  vband : ∀ p, st.visited p = true → st.dist p ≤ st.dist c
  eband : ∀ e ∈ st.nodes, st.dist c ≤ e.cost ∧ e.cost ≤ st.dist c + 1
  ccount : st.dist c ≤ visCount s st

/-- What holds of the returned node and final state when the main loop breaks
at the end cell. -/
def FoundSpec (s : ProgState) (cur : Node) (st : SearchState) : Prop :=
  cur.pos = s.end_ ∧
  st.dist s.end_ = cur.cost ∧
  cur.cost ≤ 303 ∧
  ReachN s cur.cost s.end_ ∧
  (∀ n, ReachN s n s.end_ → cur.cost ≤ n) ∧
  st.dist s.start = 0 ∧
  (∀ p, st.dist p < INT_MAX → p ∈ uSet s) ∧
  (∀ p, st.dist p < INT_MAX → p ≠ s.start →
    stepOk s (st.par p) p ∧ st.dist (st.par p) + 1 = st.dist p ∧ st.dist (st.par p) < INT_MAX)

/-! ### Concrete states used to exercise the definitions -/

instance (s : ProgState) (c q : Point) : Decidable (stepOk s c q) :=
  inferInstanceAs (Decidable (adjacent c q ∧ (q = s.end_ ∨ validPt s q)))

instance (s : ProgState) (l : List Point) : Decidable (okPath s l) :=
  inferInstanceAs (Decidable
    (l.head? = some s.start ∧ l.getLast? = some s.end_ ∧ List.Chain' adjacent l ∧
     ∀ p ∈ l, p = s.end_ ∨ validPt s p))

/-- A state whose start cell is a Wall while the end cell carries a path
label: the pre-check of `dijkstra_find_path` lets the search proceed. -/
def cexC1 : ProgState :=
  { grid := fun x y => if x = 0 ∧ y = 1 then CELL_EMPTY else CELL_WALL
    gridPathType := fun x y => if x = 0 ∧ y = 1 then CELL_PATH_1 else CELL_EMPTY
    start := ⟨0, 0⟩
    end_ := ⟨0, 1⟩
    start_selected := true
    end_selected := true
    paths_found_and_drawn := true }

/-- Another Wall-start / labelled-end state (placed elsewhere on the grid). -/
def cexC5 : ProgState :=
  { grid := fun x y => if x = 2 ∧ y = 3 then CELL_EMPTY else CELL_WALL
    gridPathType := fun x y => if x = 2 ∧ y = 3 then CELL_PATH_2 else CELL_EMPTY
    start := ⟨2, 2⟩
    end_ := ⟨2, 3⟩
    start_selected := true
    end_selected := true
    paths_found_and_drawn := true }

/-- A two-cell corridor with a valid start and an adjacent end. -/
def wC1 : ProgState :=
  { grid := fun x y =>
      if x = 0 ∧ y = 0 then CELL_START
      else if x = 1 ∧ y = 0 then CELL_END
      else CELL_WALL
    gridPathType := fun _ _ => CELL_EMPTY
    start := ⟨0, 0⟩
    end_ := ⟨1, 0⟩
    start_selected := true
    end_selected := true
    paths_found_and_drawn := true }

/-- Valid start `(0,0)`, end `(0,1)` already consumed by a previous path
(label `CELL_PATH_1`), still reachable. -/
def wC6 : ProgState :=
  { grid := fun x y =>
      if x = 0 ∧ y = 0 then CELL_START
      else if x = 0 ∧ y = 1 then CELL_END
      else CELL_WALL
    gridPathType := fun x y => if x = 0 ∧ y = 1 then CELL_PATH_1 else CELL_EMPTY
    start := ⟨0, 0⟩
    end_ := ⟨0, 1⟩
    start_selected := true
    end_selected := true
    paths_found_and_drawn := true }

/-- A wall-free 3×3 corner region (everything else walls), with start `(0,0)`
and end `(2,0)` designated, ready for the K-path loop. -/
def wFree33 : ProgState :=
  { grid := fun x y =>
      if x = 0 ∧ y = 0 then CELL_START
      else if x = 2 ∧ y = 0 then CELL_END
      else if 0 ≤ x ∧ x ≤ 2 ∧ 0 ≤ y ∧ y ≤ 2 then CELL_EMPTY
      else CELL_WALL
    gridPathType := fun _ _ => CELL_EMPTY
    start := ⟨0, 0⟩
    end_ := ⟨2, 0⟩
    start_selected := true
    end_selected := true
    paths_found_and_drawn := true }

/-- A three-cell corridor with start `(0,0)` and end `(2,0)` designated. -/
def wCorr3 : ProgState :=
  { grid := fun x y =>
      if x = 0 ∧ y = 0 then CELL_START
      else if x = 2 ∧ y = 0 then CELL_END
      else if x = 1 ∧ y = 0 then CELL_EMPTY
      else CELL_WALL
    gridPathType := fun _ _ => CELL_EMPTY
    start := ⟨0, 0⟩
    end_ := ⟨2, 0⟩
    start_selected := true
    end_selected := true
    paths_found_and_drawn := true }

/-- A state awaiting the End click: start designated at `(0,0)`, a Wall at
`(1,1)`, everything else empty. -/
def sAwait : ProgState :=
  { grid := fun x y =>
      if x = 1 ∧ y = 1 then CELL_WALL
      else if x = 0 ∧ y = 0 then CELL_START
      else CELL_EMPTY
    gridPathType := fun _ _ => CELL_EMPTY
    start := ⟨0, 0⟩
    end_ := ⟨-1, -1⟩
    start_selected := true
    end_selected := false
    paths_found_and_drawn := false }

/-- The all-free wall mask. -/
def walls0 : Int → Int → Bool := fun _ _ => false

/-- The all-free initial state after a Start click on the origin cell. -/
def sClicked : ProgState := (handle_click_grid (initialize_grid walls0) ⟨0, 0⟩).1

/-- `sClicked` after the End click at `(2,0)` (the state handed to the
orchestrator loop). -/
def sEndClicked : ProgState :=
  { sClicked with end_ := ⟨2, 0⟩, grid := upd2 sClicked.grid ⟨2, 0⟩ CELL_END,
                  end_selected := true, paths_found_and_drawn := true }

/-- Invariant of every state reachable through the public interface: the flags
are consistent, the designated endpoints are well formed and unranked, and rank
labels appear only in bounds and only after a completed search. -/
structure GoodState (s : ProgState) : Prop where
  startA : s.start_selected = true →
    inBoundsPt s.start = true ∧ s.grid s.start.x s.start.y = CELL_START ∧
    s.gridPathType s.start.x s.start.y = CELL_EMPTY
  endB : s.end_selected = true → s.gridPathType s.end_.x s.end_.y = CELL_EMPTY
  flagC : s.paths_found_and_drawn = true → s.end_selected = true
  flagD : s.end_selected = true → s.start_selected = true
  clearE : s.paths_found_and_drawn = false →
    ∀ x y : Int, s.gridPathType x y = CELL_EMPTY
  oobF : ∀ x y : Int, inBoundsXY x y = false → s.gridPathType x y = CELL_EMPTY

/-! ## Queue lemmas -/

theorem set_append_len {α : Type _} (A : List α) (c b : α) (B : List α) :
    (A ++ c :: B).set A.length b = A ++ b :: B := by
  induction A with
  | nil => simp
  | cons a A ih => simp [List.set, ih]

theorem min_idx_go_spec (rest : List Node) : ∀ (l : List Node) (bc bi i : Nat),
    i + rest.length = l.length → l.drop i = rest → bi < i →
    (l.getD bi default).cost = bc →
    min_idx_go rest bc bi i < l.length ∧
    (l.getD (min_idx_go rest bc bi i) default).cost ≤ bc ∧
    ∀ e ∈ rest, (l.getD (min_idx_go rest bc bi i) default).cost ≤ e.cost := by
  induction rest with
  | nil =>
    intro l bc bi i hlen hdrop hbi hbc
    simp only [min_idx_go]
    refine ⟨?_, le_of_eq hbc, by simp⟩
    simp only [List.length_nil] at hlen
    omega
  | cons e rest ih =>
    intro l bc bi i hlen hdrop hbi hbc
    have hi : i < l.length := by simp only [List.length_cons] at hlen; omega
    have hgi : l.getD i default = e := by
      have h1 : l[i]? = some e := by
        rw [← List.head?_drop, hdrop]; rfl
      simp [List.getD, h1]
    have hdrop' : l.drop (i + 1) = rest := by
      rw [← List.tail_drop, hdrop]; rfl
    have hlen' : (i + 1) + rest.length = l.length := by
      simp only [List.length_cons] at hlen; omega
    simp only [min_idx_go]
    by_cases hc : e.cost < bc
    · simp only [hc, if_true]
      obtain ⟨h1, h2, h3⟩ := ih l e.cost i (i + 1) hlen' hdrop' (by omega) (by rw [hgi])
      refine ⟨h1, le_trans h2 (le_of_lt hc), fun e' he' => ?_⟩
      rcases List.mem_cons.mp he' with rfl | hmem
      · exact h2
      · exact h3 e' hmem
    · simp only [hc, if_false]
      obtain ⟨h1, h2, h3⟩ := ih l bc bi (i + 1) hlen' hdrop' (by omega) hbc
      refine ⟨h1, h2, fun e' he' => ?_⟩
      rcases List.mem_cons.mp he' with rfl | hmem
      · exact le_trans h2 (by omega)
      · exact h3 e' hmem

theorem find_min_index_spec (l : List Node) (h : l ≠ []) :
    find_min_index l < l.length ∧
    ∀ e ∈ l, (l.getD (find_min_index l) default).cost ≤ e.cost := by
  cases l with
  | nil => exact absurd rfl h
  | cons e rest =>
    obtain ⟨h1, h2, h3⟩ := min_idx_go_spec rest (e :: rest) e.cost 0 1
      (by simp only [List.length_cons]; omega) (by simp) (by omega) (by simp)
    simp only [find_min_index]
    refine ⟨h1, fun e' he' => ?_⟩
    rcases List.mem_cons.mp he' with rfl | hmem
    · exact h2
    · exact h3 e' hmem

theorem remove_swap_perm_decomp (A : List Node) (c : Node) (B : List Node) :
    (A ++ c :: B).Perm (c :: remove_swap (A ++ c :: B) A.length) := by
  rcases B.eq_nil_or_concat with rfl | ⟨B', b, rfl⟩
  · have h1 : (A ++ [c]).getLast? = some c := List.getLast?_concat A
    have h2 : remove_swap (A ++ [c]) A.length = A := by
      unfold remove_swap
      rw [h1]
      dsimp only
      rw [set_append_len, List.dropLast_concat]
    rw [h2]
    exact List.perm_append_singleton _ _
  · rw [List.concat_eq_append]
    have h1 : (A ++ c :: (B' ++ [b])).getLast? = some b := by
      rw [show A ++ c :: (B' ++ [b]) = (A ++ c :: B') ++ [b] by simp]
      exact List.getLast?_concat _
    have h2 : remove_swap (A ++ c :: (B' ++ [b])) A.length = A ++ b :: B' := by
      unfold remove_swap
      rw [h1]
      dsimp only
      rw [set_append_len, show A ++ b :: (B' ++ [b]) = (A ++ b :: B') ++ [b] by simp,
        List.dropLast_concat]
    rw [h2]
    have p1 : (A ++ c :: (B' ++ [b])).Perm (c :: (A ++ (B' ++ [b]))) := List.perm_middle
    have p2 : (A ++ (B' ++ [b])).Perm (A ++ (b :: B')) :=
      List.Perm.append_left _ (List.perm_append_singleton _ _)
    exact p1.trans (List.Perm.cons _ p2)

theorem remove_swap_perm (l : List Node) (i : Nat) (hi : i < l.length) :
    l.Perm ((l.getD i default) :: remove_swap l i) := by
  obtain ⟨c, hc⟩ : ∃ c, l.getD i default = c := ⟨_, rfl⟩
  obtain ⟨A, hA⟩ : ∃ A, l.take i = A := ⟨_, rfl⟩
  obtain ⟨B, hB⟩ : ∃ B, l.drop (i + 1) = B := ⟨_, rfl⟩
  have hl : l = A ++ c :: B := by
    rw [← hc, ← hA, ← hB, List.getD_eq_getElem l default hi]
    conv_lhs => rw [← List.take_append_drop i l]
    rw [List.drop_eq_getElem_cons hi]
  have hi' : i = A.length := by
    rw [← hA, List.length_take]
    omega
  rw [hc, hl, hi']
  exact remove_swap_perm_decomp A c B

theorem pop_min_none (l : List Node) : pop_min l = none ↔ l = [] := by
  cases l <;> simp [pop_min]

theorem pop_min_spec (l : List Node) (e : Node) (r : List Node)
    (h : pop_min l = some (e, r)) :
    e ∈ l ∧ (∀ e' ∈ l, e.cost ≤ e'.cost) ∧ l.Perm (e :: r) := by
  match l with
  | a :: tl =>
    simp only [pop_min, Option.some.injEq, Prod.mk.injEq] at h
    obtain ⟨he, hr⟩ := h
    obtain ⟨h1, h2⟩ := find_min_index_spec (a :: tl) (by simp)
    have hperm := remove_swap_perm (a :: tl) (find_min_index (a :: tl)) h1
    subst he; subst hr
    refine ⟨?_, h2, hperm⟩
    exact hperm.mem_iff.mpr (by simp)

/-! ## Basic facts about points, bounds and the enqueueable set -/

theorem updN_self (f : Point → Nat) (p : Point) (v : Nat) : updN f p v p = v := by
  simp [updN]

theorem updN_ne (f : Point → Nat) (p : Point) (v : Nat) {q : Point} (h : q ≠ p) :
    updN f p v q = f q := by
  simp [updN, h]

theorem updB_self (f : Point → Bool) (p : Point) (v : Bool) : updB f p v p = v := by
  simp [updB]

theorem updB_ne (f : Point → Bool) (p : Point) (v : Bool) {q : Point} (h : q ≠ p) :
    updB f p v q = f q := by
  simp [updB, h]

theorem updP_self (f : Point → Point) (p : Point) (v : Point) : updP f p v p = v := by
  simp [updP]

theorem updP_ne (f : Point → Point) (p : Point) (v : Point) {q : Point} (h : q ≠ p) :
    updP f p v q = f q := by
  simp [updP, h]

theorem adjacent_of_dir (c : Point) {d : Int × Int} (hd : d ∈ dirs) :
    adjacent c ⟨c.x + d.1, c.y + d.2⟩ := by
  simp only [dirs, List.mem_cons, List.not_mem_nil, or_false] at hd
  rcases hd with rfl | rfl | rfl | rfl <;> simp [adjacent] <;> omega

theorem adjacent_exists_dir {c q : Point} (h : adjacent c q) :
    ∃ d ∈ dirs, q = ⟨c.x + d.1, c.y + d.2⟩ := by
  cases q with
  | mk qx qy =>
    simp only [adjacent] at h
    rcases h with ⟨hx, hy | hy⟩ | ⟨hy, hx | hx⟩
    · exact ⟨(0, 1), by simp [dirs], by simp only [Point.mk.injEq]; omega⟩
    · exact ⟨(0, -1), by simp [dirs], by simp only [Point.mk.injEq]; omega⟩
    · exact ⟨(1, 0), by simp [dirs], by simp only [Point.mk.injEq]; omega⟩
    · exact ⟨(-1, 0), by simp [dirs], by simp only [Point.mk.injEq]; omega⟩

theorem validPt_iff (s : ProgState) (p : Point) :
    validPt s p ↔ inBoundsPt p = true ∧ s.grid p.x p.y ≠ CELL_WALL ∧
      s.gridPathType p.x p.y = CELL_EMPTY := by
  unfold validPt is_valid_position inBoundsPt inBoundsXY
  simp only [Bool.and_eq_true, decide_eq_true_eq]
  tauto

theorem validPt_inBounds {s : ProgState} {p : Point} (h : validPt s p) :
    inBoundsPt p = true :=
  ((validPt_iff s p).mp h).1

theorem mem_boundsFinset {p : Point} : p ∈ boundsFinset ↔ inBoundsPt p = true := by
  cases p with
  | mk px py =>
    simp only [boundsFinset, inBoundsPt, inBoundsXY, Finset.mem_image, Finset.mem_product,
      Finset.mem_Icc, Prod.exists, Point.mk.injEq, GRID_WIDTH, GRID_HEIGHT,
      Bool.and_eq_true, decide_eq_true_eq]
    constructor
    · rintro ⟨a, b, ⟨⟨h1, h2⟩, h3, h4⟩, rfl, rfl⟩
      omega
    · rintro hh
      exact ⟨px, py, by omega, rfl, rfl⟩

theorem boundsFinset_card : boundsFinset.card = 300 := by
  unfold boundsFinset
  rw [Finset.card_image_of_injective]
  · rw [Finset.card_product, Int.card_Icc, Int.card_Icc]
    simp [GRID_WIDTH, GRID_HEIGHT]
  · intro a b hab
    simp only [Point.mk.injEq] at hab
    exact Prod.ext hab.1 hab.2

theorem mem_uSet_iff {s : ProgState} {p : Point} :
    p ∈ uSet s ↔ p = s.start ∨ p = s.end_ ∨ validPt s p := by
  unfold uSet validFinset
  simp only [Finset.mem_insert, Finset.mem_filter, mem_boundsFinset]
  constructor
  · rintro (h | h | ⟨h1, h2⟩)
    · exact Or.inl h
    · exact Or.inr (Or.inl h)
    · exact Or.inr (Or.inr h2)
  · rintro (h | h | h)
    · exact Or.inl h
    · exact Or.inr (Or.inl h)
    · exact Or.inr (Or.inr ⟨validPt_inBounds h, h⟩)

theorem uSet_subset_bounds (s : ProgState) (h1 : inBoundsPt s.start = true)
    (h2 : inBoundsPt s.end_ = true) : uSet s ⊆ boundsFinset := by
  intro p hp
  rcases mem_uSet_iff.mp hp with rfl | rfl | h
  · exact mem_boundsFinset.mpr h1
  · exact mem_boundsFinset.mpr h2
  · exact mem_boundsFinset.mpr (validPt_inBounds h)

theorem uSet_card_le (s : ProgState) (h1 : inBoundsPt s.start = true)
    (h2 : inBoundsPt s.end_ = true) : (uSet s).card ≤ 300 := by
  calc (uSet s).card ≤ boundsFinset.card := Finset.card_le_card (uSet_subset_bounds s h1 h2)
  _ = 300 := boundsFinset_card

theorem uSet_card_le' (s : ProgState) : (uSet s).card ≤ 302 := by
  have h1 : (validFinset s).card ≤ 300 := by
    calc (validFinset s).card ≤ boundsFinset.card :=
          Finset.card_le_card (Finset.filter_subset _ _)
    _ = 300 := boundsFinset_card
  calc (uSet s).card ≤ (insert s.end_ (validFinset s)).card + 1 := Finset.card_insert_le _ _
  _ ≤ ((validFinset s).card + 1) + 1 := by
      have := Finset.card_insert_le s.end_ (validFinset s)
      omega
  _ ≤ 302 := by omega

theorem visCount_le (s : ProgState) (st : SearchState) : visCount s st ≤ 302 := by
  calc visCount s st ≤ (uSet s).card := Finset.card_le_card (Finset.filter_subset _ _)
  _ ≤ 302 := uSet_card_le' s

/-! ## Consequences of the invariant -/

theorem Inv.entry_cost_le {s : ProgState} {st : SearchState} (hI : Inv s st)
    {e : Node} (he : e ∈ st.nodes) : e.cost ≤ 303 := by
  obtain ⟨m, _, hent, hvc⟩ := hI.band
  have h1 := (hent e he).2
  have h2 := visCount_le s st
  omega

theorem Inv.entry_cost_lt {s : ProgState} {st : SearchState} (hI : Inv s st)
    {e : Node} (he : e ∈ st.nodes) : e.cost < INT_MAX := by
  have := hI.entry_cost_le he
  unfold INT_MAX
  omega

theorem Inv.visited_dist_lt {s : ProgState} {st : SearchState} (hI : Inv s st)
    {p : Point} (h : st.visited p = true) : st.dist p + 1 < INT_MAX := by
  obtain ⟨m, hvis, _, hvc⟩ := hI.band
  have h1 := hvis p h
  have h2 := visCount_le s st
  unfold INT_MAX
  omega

theorem zero_lt_int_max : 0 < INT_MAX := by unfold INT_MAX; omega

/-- The crucial cut argument: at the moment a minimum entry `e` is about to be
popped, every walk to a still-unvisited cell costs at least `e.cost`. -/
theorem cut_lemma {s : ProgState} {st : SearchState} (hI : Inv s st) {e : Node} {r : List Node}
    (hpop : pop_min st.nodes = some (e, r)) :
    ∀ n p, ReachN s n p → st.visited p = false → e.cost ≤ n := by
  have hmin := (pop_min_spec _ _ _ hpop).2.1
  intro n p hre
  induction hre with
  | base =>
    intro hnv
    have hd0 : st.dist s.start < INT_MAX := by rw [hI.dist_src]; exact zero_lt_int_max
    obtain ⟨e', he', hpe⟩ := hI.fresh_in_queue s.start hd0 hnv
    have h1 := hmin e' he'
    have h2 := hI.entries_dist e' he'
    rw [hpe, hI.dist_src] at h2
    omega
  | @step n c q hrc hok ih =>
    intro hqv
    by_cases hcv : st.visited c = true
    · have h1 : st.dist c ≤ n := hI.visited_min c hcv n hrc
      have h2 : st.dist q ≤ st.dist c + 1 := hI.relaxed c q hcv hok hqv
      have h3 : st.dist q < INT_MAX := lt_of_le_of_lt h2 (hI.visited_dist_lt hcv)
      obtain ⟨e', he', hpe⟩ := hI.fresh_in_queue q h3 hqv
      have h4 := hmin e' he'
      have h5 := hI.entries_dist e' he'
      rw [hpe] at h5
      omega
    · have := ih (Bool.not_eq_true _ ▸ hcv)
      omega

/-- When the queue is empty, every cell reachable by a legal walk has been
visited; in particular the sink has not been reached (it is never visited
inside the loop). -/
theorem exhaust_lemma {s : ProgState} {st : SearchState} (hI : Inv s st)
    (hemp : st.nodes = []) : ∀ n p, ReachN s n p → st.visited p = true := by
  intro n p hre
  induction hre with
  | base =>
    by_contra hnv
    have hd0 : st.dist s.start < INT_MAX := by rw [hI.dist_src]; exact zero_lt_int_max
    obtain ⟨e', he', _⟩ := hI.fresh_in_queue s.start hd0 (Bool.not_eq_true _ ▸ hnv)
    rw [hemp] at he'
    exact absurd he' (List.not_mem_nil _)
  | @step n c q hrc hok ih =>
    by_contra hnv
    have hqv : st.visited q = false := Bool.not_eq_true _ ▸ hnv
    have h2 : st.dist q ≤ st.dist c + 1 := hI.relaxed c q ih hok hqv
    have h3 : st.dist q < INT_MAX := lt_of_le_of_lt h2 (hI.visited_dist_lt ih)
    obtain ⟨e', he', _⟩ := hI.fresh_in_queue q h3 hqv
    rw [hemp] at he'
    exact absurd he' (List.not_mem_nil _)

theorem exhaust_no_path {s : ProgState} {st : SearchState} (hI : Inv s st)
    (hemp : st.nodes = []) : ∀ n, ¬ ReachN s n s.end_ := by
  intro n hre
  have := exhaust_lemma hI hemp n s.end_ hre
  rw [hI.sink_unvisited] at this
  exact Bool.false_ne_true this

/-! ## The initial invariant -/

theorem inv_init (s : ProgState) : Inv s (init_state s.start) := by
  constructor
  case dist_src => simp [init_state]
  case entries_dist =>
    intro e he
    simp only [init_state, List.mem_singleton] at he
    subst he
    simp [init_state]
  case entries_fresh =>
    intro e he
    simp [init_state]
  case nodup => simp [init_state]
  case pushed_in =>
    intro p hp
    simp only [init_state] at hp
    by_cases h : p = s.start
    · rw [h]; exact mem_uSet_iff.mpr (Or.inl rfl)
    · rw [if_neg h] at hp; omega
  case visited_pushed =>
    intro p hp
    simp [init_state] at hp
  case fresh_in_queue =>
    intro p hp _
    simp only [init_state] at hp ⊢
    by_cases h : p = s.start
    · exact ⟨⟨s.start, 0⟩, List.mem_singleton_self _, h.symm⟩
    · rw [if_neg h] at hp; omega
  case dist_reach =>
    intro p hp
    simp only [init_state] at hp ⊢
    by_cases h : p = s.start
    · subst h
      simp only [if_pos rfl]
      exact ReachN.base
    · rw [if_neg h] at hp; omega
  case visited_min =>
    intro p hp
    simp [init_state] at hp
  case relaxed =>
    intro p q hp
    simp [init_state] at hp
  case band =>
    refine ⟨0, fun p hp => ?_, fun e he => ?_, Nat.zero_le _⟩
    · simp [init_state] at hp
    · simp only [init_state, List.mem_singleton] at he
      subst he
      exact ⟨Nat.zero_le _, Nat.zero_le _⟩
  case sink_unvisited => simp [init_state]
  case parent_ok =>
    intro p hp hps
    simp only [init_state] at hp
    rw [if_neg hps] at hp
    omega

/-! ## Preservation of the invariant -/

theorem point_eq_iff {a b : Point} : a = b ↔ a.x = b.x ∧ a.y = b.y := by
  cases a; cases b; simp [Point.mk.injEq]

theorem visCount_popState (s : ProgState) (st : SearchState) (e : Node) (r : List Node)
    (hin : e.pos ∈ uSet s) (hnv : st.visited e.pos = false) :
    visCount s (popState st e r) = visCount s st + 1 := by
  unfold visCount popState
  have hset : ((uSet s).filter (fun p => updB st.visited e.pos true p = true))
      = insert e.pos ((uSet s).filter (fun p => st.visited p = true)) := by
    ext p
    simp only [Finset.mem_filter, Finset.mem_insert]
    by_cases hp : p = e.pos
    · subst hp
      simp [updB_self, hin]
    · rw [updB_ne _ _ _ hp]
      constructor
      · rintro ⟨ha, hb⟩; exact Or.inr ⟨ha, hb⟩
      · rintro (h | ⟨ha, hb⟩)
        · exact absurd h hp
        · exact ⟨ha, hb⟩
  rw [hset, Finset.card_insert_of_not_mem]
  simp only [Finset.mem_filter, not_and]
  intro _
  rw [hnv]
  simp

theorem popState_dist (st : SearchState) (e : Node) (r : List Node) :
    (popState st e r).dist = st.dist := rfl

theorem popState_visited (st : SearchState) (e : Node) (r : List Node) :
    (popState st e r).visited = updB st.visited e.pos true := rfl

theorem popState_par (st : SearchState) (e : Node) (r : List Node) :
    (popState st e r).par = st.par := rfl

theorem popState_nodes (st : SearchState) (e : Node) (r : List Node) :
    (popState st e r).nodes = r := rfl

theorem updB_true_iff (f : Point → Bool) (c : Point) (q : Point) :
    updB f c true q = true ↔ (q = c ∨ f q = true) := by
  by_cases h : q = c
  · subst h; simp [updB_self]
  · rw [updB_ne _ _ _ h]; simp [h]

theorem updB_false_iff (f : Point → Bool) (c : Point) (q : Point) :
    updB f c true q = false ↔ (q ≠ c ∧ f q = false) := by
  by_cases h : q = c
  · subst h; simp [updB_self]
  · rw [updB_ne _ _ _ h]; simp [h]

theorem invMid_after_pop {s : ProgState} {st : SearchState} {e : Node} {r : List Node}
    (hI : Inv s st) (hpop : pop_min st.nodes = some (e, r)) (hne : e.pos ≠ s.end_) :
    InvMid s e.pos dirs (popState st e r) := by
  obtain ⟨hmem, hmin, hperm⟩ := pop_min_spec _ _ _ hpop
  have hfresh : st.visited e.pos = false := hI.entries_fresh e hmem
  have hde : st.dist e.pos = e.cost := hI.entries_dist e hmem
  have hclt : e.cost < INT_MAX := hI.entry_cost_lt hmem
  have hein : e.pos ∈ uSet s := hI.pushed_in e.pos (hde ▸ hclt)
  obtain ⟨m, hbv, hbe, hbc⟩ := hI.band
  have hrmem : ∀ e' ∈ r, e' ∈ st.nodes := fun e' he' =>
    hperm.mem_iff.mpr (List.mem_cons_of_mem _ he')
  have hconsnd : (e.pos :: r.map Node.pos).Nodup := by
    have h1 : (st.nodes.map Node.pos).Perm (e.pos :: r.map Node.pos) := by
      simpa using hperm.map Node.pos
    exact h1.nodup_iff.mp hI.nodup
  have hposr : e.pos ∉ r.map Node.pos := (List.nodup_cons.mp hconsnd).1
  have hme : m ≤ e.cost := (hbe e hmem).1
  constructor
  case dist_src => exact hI.dist_src
  case entries_dist => exact fun e' he' => hI.entries_dist e' (hrmem e' he')
  case entries_fresh =>
    intro e' he'
    have hne' : e'.pos ≠ e.pos := by
      intro hcon
      exact hposr (hcon ▸ List.mem_map_of_mem Node.pos he')
    exact (updB_false_iff st.visited e.pos e'.pos).mpr
      ⟨hne', hI.entries_fresh e' (hrmem e' he')⟩
  case nodup => exact (List.nodup_cons.mp hconsnd).2
  case pushed_in => exact fun p hp => hI.pushed_in p hp
  case visited_pushed =>
    intro p hp
    rcases (updB_true_iff st.visited e.pos p).mp hp with rfl | hv
    · show st.dist e.pos < INT_MAX
      rw [hde]; exact hclt
    · exact hI.visited_pushed p hv
  case fresh_in_queue =>
    intro p hp hv
    obtain ⟨hpe, hv'⟩ := (updB_false_iff st.visited e.pos p).mp hv
    obtain ⟨e', he', hpe'⟩ := hI.fresh_in_queue p hp hv'
    have hmem' : e' ∈ e :: r := hperm.mem_iff.mp he'
    rcases List.mem_cons.mp hmem' with rfl | hr
    · exact absurd hpe' hpe.symm.elim
    · exact ⟨e', hr, hpe'⟩
  case dist_reach => exact fun p hp => hI.dist_reach p hp
  case visited_min =>
    intro p hp n hre
    rcases (updB_true_iff st.visited e.pos p).mp hp with rfl | hv
    · show st.dist e.pos ≤ n
      rw [hde]
      exact cut_lemma hI hpop n e.pos hre hfresh
    · exact hI.visited_min p hv n hre
  case relaxMid =>
    intro p q hp hok hq
    obtain ⟨hqe, hqv⟩ := (updB_false_iff st.visited e.pos q).mp hq
    rcases (updB_true_iff st.visited e.pos p).mp hp with rfl | hv
    · right
      obtain ⟨dd, hdd, hqd⟩ := adjacent_exists_dir hok.1
      exact ⟨rfl, dd, hdd, hqd⟩
    · left
      exact hI.relaxed p q hv hok hqv
  case sink_unvisited =>
    exact (updB_false_iff st.visited e.pos s.end_).mpr ⟨Ne.symm hne, hI.sink_unvisited⟩
  case parent_ok =>
    intro p hp hps
    obtain ⟨h1, h2, h3, h4⟩ := hI.parent_ok p hp hps
    exact ⟨h1, h2, (updB_true_iff st.visited e.pos (st.par p)).mpr (Or.inr h3), h4⟩
  case cvis => exact updB_self _ _ _
  case cpushed =>
    show st.dist e.pos < INT_MAX
    rw [hde]; exact hclt
  case vband =>
    intro p hp
    rcases (updB_true_iff st.visited e.pos p).mp hp with rfl | hv
    · exact le_refl _
    · show st.dist p ≤ st.dist e.pos
      rw [hde]
      calc st.dist p ≤ m := hbv p hv
      _ ≤ e.cost := hme
  case eband =>
    intro e' he'
    have h1 := hbe e' (hrmem e' he')
    have h2 := hmin e' (hrmem e' he')
    show st.dist e.pos ≤ e'.cost ∧ e'.cost ≤ st.dist e.pos + 1
    rw [hde]
    omega
  case ccount =>
    show st.dist e.pos ≤ visCount s (popState st e r)
    rw [hde, visCount_popState s st e r hein hfresh]
    have h2 := (hbe e hmem).2
    omega

theorem relax_guard_iff (s : ProgState) (nx ny : Int) :
    ((!(decide (nx = s.end_.x) && decide (ny = s.end_.y)) &&
      !(is_valid_position s nx ny)) = false) ↔
    ((⟨nx, ny⟩ : Point) = s.end_ ∨ validPt s ⟨nx, ny⟩) := by
  have hpt : (⟨nx, ny⟩ : Point) = s.end_ ↔ (nx = s.end_.x ∧ ny = s.end_.y) := point_eq_iff
  have hvp : validPt s ⟨nx, ny⟩ ↔ is_valid_position s nx ny = true := Iff.rfl
  rw [hpt, hvp]
  cases hA : decide (nx = s.end_.x) <;> cases hB : decide (ny = s.end_.y) <;>
    cases hC : is_valid_position s nx ny <;> simp_all

theorem relax_dir_cases (s : ProgState) (c : Point) (st : SearchState) (d : Int × Int) :
    (relax_dir s c st d = st ∧
      (¬ (((⟨c.x + d.1, c.y + d.2⟩ : Point) = s.end_) ∨ validPt s ⟨c.x + d.1, c.y + d.2⟩) ∨
        st.visited ⟨c.x + d.1, c.y + d.2⟩ = true ∨
        ¬ (st.dist c + 1 < st.dist ⟨c.x + d.1, c.y + d.2⟩))) ∨
    ((((⟨c.x + d.1, c.y + d.2⟩ : Point) = s.end_) ∨ validPt s ⟨c.x + d.1, c.y + d.2⟩) ∧
      st.visited ⟨c.x + d.1, c.y + d.2⟩ = false ∧
      st.dist c + 1 < st.dist ⟨c.x + d.1, c.y + d.2⟩ ∧
      relax_dir s c st d =
        { dist := updN st.dist ⟨c.x + d.1, c.y + d.2⟩ (st.dist c + 1)
          visited := st.visited
          par := updP st.par ⟨c.x + d.1, c.y + d.2⟩ c
          nodes := st.nodes ++ [⟨⟨c.x + d.1, c.y + d.2⟩, st.dist c + 1⟩] }) := by
  simp only [relax_dir]
  split_ifs with h1 h2 h3
  · refine Or.inl ⟨rfl, Or.inl fun hcon => ?_⟩
    have := (relax_guard_iff s (c.x + d.1) (c.y + d.2)).mpr hcon
    exact Bool.noConfusion (h1.symm.trans this)
  · exact Or.inl ⟨rfl, Or.inr (Or.inl h2)⟩
  · refine Or.inr ⟨?_, Bool.eq_false_iff.mpr h2, h3, rfl⟩
    exact (relax_guard_iff s (c.x + d.1) (c.y + d.2)).mp (Bool.eq_false_iff.mpr h1)
  · exact Or.inl ⟨rfl, Or.inr (Or.inr h3)⟩

theorem relax_step {s : ProgState} {c : Point} {d : Int × Int} {rem : List (Int × Int)}
    {st : SearchState} (hMid : InvMid s c (d :: rem) st) (hd : d ∈ dirs) :
    InvMid s c rem (relax_dir s c st d) ∧ smeasure s (relax_dir s c st d) ≤ smeasure s st := by
  rcases relax_dir_cases s c st d with ⟨heq, hreason⟩ | ⟨hok0, hqv, hlt, heq⟩
  · rw [heq]
    refine ⟨⟨hMid.dist_src, hMid.entries_dist, hMid.entries_fresh, hMid.nodup, hMid.pushed_in,
      hMid.visited_pushed, hMid.fresh_in_queue, hMid.dist_reach, hMid.visited_min, ?_,
      hMid.sink_unvisited, hMid.parent_ok, hMid.cvis, hMid.cpushed, hMid.vband, hMid.eband,
      hMid.ccount⟩, le_refl _⟩
    intro p q hp hok hq
    rcases hMid.relaxMid p q hp hok hq with h | ⟨rfl, dd, hdd, hqd⟩
    · exact Or.inl h
    · rcases List.mem_cons.mp hdd with rfl | hdd'
      · subst hqd
        rcases hreason with hr | hr | hr
        · exact absurd hok.2 hr
        · rw [hq] at hr
          exact Bool.noConfusion hr
        · exact Or.inl (by omega)
      · exact Or.inr ⟨rfl, dd, hdd', hqd⟩
  · -- the push case
    set q : Point := (⟨c.x + d.1, c.y + d.2⟩ : Point) with hqdef
    set nc : Nat := st.dist c + 1 with hncdef
    set R : SearchState :=
      { dist := updN st.dist q nc
        visited := st.visited
        par := updP st.par q c
        nodes := st.nodes ++ [⟨q, nc⟩] } with hRdef
    rw [heq]
    have hstep : stepOk s c q := ⟨adjacent_of_dir c hd, hok0⟩
    have hqc : q ≠ c := by
      intro hcon
      rw [hcon, hMid.cvis] at hqv
      exact Bool.noConfusion hqv
    have hqs : q ≠ s.start := by
      intro hcon
      rw [hcon, hMid.dist_src] at hlt
      omega
    have hfar : ¬ (st.dist q < INT_MAX) := by
      intro hcon
      obtain ⟨e', he', hpe⟩ := hMid.fresh_in_queue q hcon hqv
      have h1 := hMid.entries_dist e' he'
      have h2 := (hMid.eband e' he').2
      rw [hpe] at h1
      omega
    have hnc_lt : nc < INT_MAX := by
      have h1 := hMid.ccount
      have h2 := visCount_le s st
      unfold INT_MAX
      omega
    have hqU : q ∈ uSet s := by
      rcases hok0 with h | h
      · exact mem_uSet_iff.mpr (Or.inr (Or.inl h))
      · exact mem_uSet_iff.mpr (Or.inr (Or.inr h))
    have hposq : ∀ e' ∈ st.nodes, e'.pos ≠ q := by
      intro e' he' hcon
      have h1 := hMid.entries_dist e' he'
      have h2 := (hMid.eband e' he').2
      rw [hcon] at h1
      omega
    have hDq : R.dist q = nc := updN_self _ _ _
    have hDne : ∀ p, p ≠ q → R.dist p = st.dist p := fun p hp => updN_ne _ _ _ hp
    have hDle : ∀ p, R.dist p ≤ st.dist p := by
      intro p
      by_cases hp : p = q
      · subst hp; rw [hDq]; omega
      · rw [hDne p hp]
    have hDc : R.dist c = st.dist c := hDne c (Ne.symm hqc)
    have hVis : R.visited = st.visited := rfl
    have hNodes : R.nodes = st.nodes ++ [⟨q, nc⟩] := rfl
    have hDlt : ∀ p, R.dist p < INT_MAX ↔ (p = q ∨ st.dist p < INT_MAX) := by
      intro p
      by_cases hp : p = q
      · subst hp
        rw [hDq]
        exact ⟨fun _ => Or.inl rfl, fun _ => hnc_lt⟩
      · rw [hDne p hp]
        exact ⟨fun h => Or.inr h, fun h => h.resolve_left hp⟩
    constructor
    · constructor
      case dist_src =>
        rw [hDne s.start (Ne.symm hqs)]
        exact hMid.dist_src
      case entries_dist =>
        intro e' he'
        rw [hNodes] at he'
        rcases List.mem_append.mp he' with hold | hnew
        · rw [hDne e'.pos (hposq e' hold)]
          exact hMid.entries_dist e' hold
        · rw [List.mem_singleton.mp hnew]
          exact hDq
      case entries_fresh =>
        intro e' he'
        rw [hNodes] at he'
        rcases List.mem_append.mp he' with hold | hnew
        · exact hMid.entries_fresh e' hold
        · rw [List.mem_singleton.mp hnew]
          exact hqv
      case nodup =>
        rw [hNodes, List.map_append]
        rw [List.nodup_append]
        refine ⟨hMid.nodup, by simp, ?_⟩
        intro a ha hb
        simp only [List.map_cons, List.map_nil, List.mem_singleton] at hb
        obtain ⟨e', he', hpe⟩ := List.mem_map.mp ha
        exact hposq e' he' (by rw [hpe, hb])
      case pushed_in =>
        intro p hp
        rcases (hDlt p).mp hp with rfl | hp'
        · exact hqU
        · exact hMid.pushed_in p hp'
      case visited_pushed =>
        intro p hp
        have hpq : p ≠ q := by
          intro hcon
          rw [hcon, hqv] at hp
          exact Bool.noConfusion hp
        rw [hDne p hpq]
        exact hMid.visited_pushed p hp
      case fresh_in_queue =>
        intro p hp hv
        rw [hNodes]
        rcases (hDlt p).mp hp with rfl | hp'
        · exact ⟨⟨q, nc⟩, List.mem_append_right _ (List.mem_singleton_self _), rfl⟩
        · obtain ⟨e', he', hpe⟩ := hMid.fresh_in_queue p hp' hv
          exact ⟨e', List.mem_append_left _ he', hpe⟩
      case dist_reach =>
        intro p hp
        rcases (hDlt p).mp hp with rfl | hp'
        · rw [hDq, hncdef]
          exact ReachN.step (hMid.dist_reach c hMid.cpushed) hstep
        · by_cases hpq : p = q
          · subst hpq
            rw [hDq, hncdef]
            exact ReachN.step (hMid.dist_reach c hMid.cpushed) hstep
          · rw [hDne p hpq]
            exact hMid.dist_reach p hp'
      case visited_min =>
        intro p hp n hre
        have hpq : p ≠ q := by
          intro hcon
          rw [hcon, hqv] at hp
          exact Bool.noConfusion hp
        rw [hDne p hpq]
        exact hMid.visited_min p hp n hre
      case relaxMid =>
        intro p' q'' hp' hok' hq''
        rcases hMid.relaxMid p' q'' hp' hok' hq'' with h | ⟨rfl, dd, hdd, hqd⟩
        · left
          have hp'q : p' ≠ q := by
            intro hcon
            rw [hcon, hqv] at hp'
            exact Bool.noConfusion hp'
          rw [hDne p' hp'q]
          calc R.dist q'' ≤ st.dist q'' := hDle q''
          _ ≤ st.dist p' + 1 := h
        · rcases List.mem_cons.mp hdd with rfl | hdd'
          · left
            rw [← hqdef] at hqd
            subst hqd
            rw [hDq, hDc]
          · exact Or.inr ⟨rfl, dd, hdd', hqd⟩
      case sink_unvisited => exact hMid.sink_unvisited
      case parent_ok =>
        intro p hp hps
        rcases (hDlt p).mp hp with rfl | hp'
        · have hpar : R.par q = c := updP_self _ _ _
          rw [hpar, hDq, hDc]
          refine ⟨hstep, by omega, hMid.cvis, hDc ▸ hMid.cpushed⟩
        · by_cases hpq : p = q
          · subst hpq
            have hpar : R.par q = c := updP_self _ _ _
            rw [hpar, hDq, hDc]
            refine ⟨hstep, by omega, hMid.cvis, hDc ▸ hMid.cpushed⟩
          · obtain ⟨o1, o2, o3, o4⟩ := hMid.parent_ok p hp' hps
            have hparq : st.par p ≠ q := by
              intro hcon
              rw [hcon, hqv] at o3
              exact Bool.noConfusion o3
            have hpar : R.par p = st.par p := updP_ne _ _ _ hpq
            rw [hpar, hDne p hpq, hDne (st.par p) hparq]
            exact ⟨o1, o2, o3, o4⟩
      case cvis => exact hMid.cvis
      case cpushed => rw [hDc]; exact hMid.cpushed
      case vband =>
        intro p hp
        have hpq : p ≠ q := by
          intro hcon
          rw [hcon, hqv] at hp
          exact Bool.noConfusion hp
        rw [hDne p hpq, hDc]
        exact hMid.vband p hp
      case eband =>
        intro e' he'
        rw [hNodes] at he'
        rw [hDc]
        rcases List.mem_append.mp he' with hold | hnew
        · exact hMid.eband e' hold
        · rw [List.mem_singleton.mp hnew]
          show st.dist c ≤ nc ∧ nc ≤ st.dist c + 1
          omega
      case ccount =>
        rw [hDc]
        exact hMid.ccount
    · -- measure does not increase
      have hfilter : (uSet s).filter (fun p => ¬ R.dist p < INT_MAX)
          = ((uSet s).filter (fun p => ¬ st.dist p < INT_MAX)).erase q := by
        ext p
        simp only [Finset.mem_filter, Finset.mem_erase]
        by_cases hp : p = q
        · subst hp
          rw [updN_self]
          constructor
          · rintro ⟨_, hcon⟩
            exact absurd hnc_lt hcon
          · rintro ⟨hcon, _⟩
            exact absurd rfl hcon
        · rw [updN_ne st.dist q nc hp]
          constructor
          · rintro ⟨h1, h2⟩
            exact ⟨hp, h1, h2⟩
          · rintro ⟨_, h1, h2⟩
            exact ⟨h1, h2⟩
      have hqmem : q ∈ (uSet s).filter (fun p => ¬ st.dist p < INT_MAX) :=
        Finset.mem_filter.mpr ⟨hqU, hfar⟩
      have hpos : 0 < ((uSet s).filter (fun p => ¬ st.dist p < INT_MAX)).card :=
        Finset.card_pos.mpr ⟨q, hqmem⟩
      have hcard := Finset.card_erase_of_mem hqmem
      unfold smeasure
      rw [hfilter, hcard, hNodes, List.length_append]
      simp only [List.length_singleton]
      omega

theorem relax_fold {s : ProgState} {c : Point} :
    ∀ (ds : List (Int × Int)) {st : SearchState}, (∀ d ∈ ds, d ∈ dirs) →
    InvMid s c ds st →
    InvMid s c [] (ds.foldl (relax_dir s c) st) ∧
      smeasure s (ds.foldl (relax_dir s c) st) ≤ smeasure s st := by
  intro ds
  induction ds with
  | nil =>
    intro st _ h
    exact ⟨h, le_refl _⟩
  | cons d ds ih =>
    intro st hsub hMid
    obtain ⟨h1, h2⟩ := relax_step hMid (hsub d (List.mem_cons_self _ _))
    obtain ⟨h3, h4⟩ := ih (fun d' hd' => hsub d' (List.mem_cons_of_mem _ hd')) h1
    exact ⟨h3, le_trans h4 h2⟩

theorem invMid_nil_to_inv {s : ProgState} {c : Point} {st : SearchState}
    (h : InvMid s c [] st) : Inv s st := by
  refine ⟨h.dist_src, h.entries_dist, h.entries_fresh, h.nodup, h.pushed_in,
    h.visited_pushed, h.fresh_in_queue, h.dist_reach, h.visited_min, ?_,
    ⟨st.dist c, h.vband, h.eband, h.ccount⟩, h.sink_unvisited, h.parent_ok⟩
  intro p q hp hok hq
  rcases h.relaxMid p q hp hok hq with h' | ⟨_, dd, hdd, _⟩
  · exact h'
  · exact absurd hdd (List.not_mem_nil dd)

theorem expand_inv {s : ProgState} {c : Point} {st : SearchState} (h : InvMid s c dirs st) :
    Inv s (expand s c st) ∧ smeasure s (expand s c st) ≤ smeasure s st := by
  obtain ⟨h1, h2⟩ := relax_fold dirs (fun d hd => hd) h
  exact ⟨invMid_nil_to_inv h1, h2⟩


/-! ## The step and loop theorems -/

theorem dstep_eq_none {s : ProgState} {st st2 : SearchState}
    (h : dstep s st = Sum.inr (none, st2)) : st.nodes = [] ∧ st2 = st := by
  unfold dstep at h
  split at h
  next hpm =>
    have heq : st = st2 := by
      injection h with h'
      injection h' with ha hb
    exact ⟨(pop_min_none _).mp hpm, heq.symm⟩
  next e r hpm =>
    dsimp only at h
    split_ifs at h with h1 h2
    exact absurd h (by simp)

theorem dstep_eq_inl {s : ProgState} {st st' : SearchState} (hI : Inv s st)
    (h : dstep s st = Sum.inl st') : Inv s st' ∧ smeasure s st' < smeasure s st := by
  unfold dstep at h
  split at h
  · exact absurd h (by simp)
  next e r hpm =>
    dsimp only at h
    obtain ⟨hmem, hmin, hperm⟩ := pop_min_spec _ _ _ hpm
    have hfresh : st.visited e.pos = false := hI.entries_fresh e hmem
    rw [if_neg (by rw [hfresh]; exact Bool.false_ne_true)] at h
    by_cases hend : e.pos = s.end_
    · rw [if_pos hend] at h
      exact absurd h (by simp)
    · rw [if_neg hend] at h
      injection h with h2
      have hMid := invMid_after_pop hI hpm hend
      obtain ⟨hInv, hle⟩ := expand_inv hMid
      have hlen : st.nodes.length = r.length + 1 := by
        rw [hperm.length_eq]
        simp
      have hsm : smeasure s (popState st e r) < smeasure s st := by
        unfold smeasure popState
        dsimp only
        omega
      constructor
      · rw [← h2]
        exact hInv
      · rw [← h2]
        exact lt_of_le_of_lt hle hsm

theorem dstep_eq_found {s : ProgState} {st : SearchState} {cur : Node} {st2 : SearchState}
    (hI : Inv s st) (h : dstep s st = Sum.inr (some cur, st2)) : FoundSpec s cur st2 := by
  unfold dstep at h
  split at h
  · injection h with h'
    injection h' with ha hb
    exact absurd ha (by simp)
  next e r hpm =>
    dsimp only at h
    obtain ⟨hmem, hmin, hperm⟩ := pop_min_spec _ _ _ hpm
    have hfresh : st.visited e.pos = false := hI.entries_fresh e hmem
    rw [if_neg (by rw [hfresh]; exact Bool.false_ne_true)] at h
    by_cases hend : e.pos = s.end_
    · rw [if_pos hend] at h
      injection h with h'
      injection h' with ha hb
      injection ha with hc
      subst cur
      subst st2
      have hde : st.dist e.pos = e.cost := hI.entries_dist e hmem
      refine ⟨hend, ?_, hI.entry_cost_le hmem, ?_, ?_, hI.dist_src, hI.pushed_in, ?_⟩
      · show st.dist s.end_ = e.cost
        rw [← hend]
        exact hI.entries_dist e hmem
      · have := hI.dist_reach e.pos (by rw [hde]; exact hI.entry_cost_lt hmem)
        rw [hde, hend] at this
        exact this
      · intro n hre
        exact cut_lemma hI hpm n s.end_ hre hI.sink_unvisited
      · intro p hp hps
        obtain ⟨o1, o2, o3, o4⟩ := hI.parent_ok p hp hps
        exact ⟨o1, o2, o4⟩
    · rw [if_neg hend] at h
      exact absurd h (by simp)

theorem dloop_master (s : ProgState) :
    ∀ (fuel : Nat) (st : SearchState), Inv s st → smeasure s st ≤ fuel →
    (∀ cur st2, dloop s fuel st = (some cur, st2) → FoundSpec s cur st2) ∧
    (∀ st2, dloop s fuel st = (none, st2) → ∀ n, ¬ ReachN s n s.end_) := by
  intro fuel
  induction fuel with
  | zero =>
    intro st hI hm
    constructor
    · intro cur st2 h
      exact absurd h (by simp [dloop])
    · intro st2 h n hre
      have hnil : st.nodes = [] := by
        have h1 : st.nodes.length = 0 := by
          unfold smeasure at hm
          omega
        exact List.length_eq_zero.mp h1
      exact exhaust_no_path hI hnil n hre
  | succ fuel ih =>
    intro st hI hm
    have hun : dloop s (fuel + 1) st = match dstep s st with
        | Sum.inl st' => dloop s fuel st'
        | Sum.inr r => r := rfl
    rcases hds : dstep s st with st' | ⟨o, st2⟩
    · obtain ⟨hI', hlt⟩ := dstep_eq_inl hI hds
      have heq : dloop s (fuel + 1) st = dloop s fuel st' := by rw [hun, hds]
      rw [heq]
      exact ih st' hI' (by omega)
    · rcases o with _ | cur
      · obtain ⟨hnil, rfl⟩ := dstep_eq_none hds
        constructor
        · intro cur st2' h
          rw [hun, hds] at h
          exact absurd h (by simp)
        · intro st2' h n hre
          exact exhaust_no_path hI hnil n hre
      · have hFS := dstep_eq_found hI hds
        constructor
        · intro cur' st2' h
          rw [hun, hds] at h
          injection h with ha hb
          injection ha with hc
          subst cur'
          subst st2'
          exact hFS
        · intro st2' h n hre
          rw [hun, hds] at h
          exact absurd h (by simp)

theorem smeasure_le (s : ProgState) (st : SearchState) :
    smeasure s st ≤ st.nodes.length + 604 := by
  unfold smeasure
  have h1 : ((uSet s).filter fun p => ¬ st.dist p < INT_MAX).card ≤ 302 :=
    le_trans (Finset.card_le_card (Finset.filter_subset _ _)) (uSet_card_le' s)
  omega

theorem smeasure_init_le (s : ProgState) : smeasure s (init_state s.start) ≤ search_fuel := by
  have h1 := smeasure_le s (init_state s.start)
  have hlen : (init_state s.start).nodes.length = 1 := rfl
  unfold search_fuel
  omega

theorem dloop_found_spec (s : ProgState) {cur : Node} {st2 : SearchState}
    (h : dloop s search_fuel (init_state s.start) = (some cur, st2)) : FoundSpec s cur st2 :=
  ((dloop_master s search_fuel (init_state s.start) (inv_init s) (smeasure_init_le s)).1)
    cur st2 h

theorem dloop_none_spec (s : ProgState) {st2 : SearchState}
    (h : dloop s search_fuel (init_state s.start) = (none, st2)) :
    ∀ n, ¬ ReachN s n s.end_ :=
  ((dloop_master s search_fuel (init_state s.start) (inv_init s) (smeasure_init_le s)).2) st2 h


/-! ## The reconstruction walk -/

theorem inBounds_guard {p : Point} (h : inBoundsPt p = true) : ¬ (p.x = -1 ∨ p.y = -1) := by
  unfold inBoundsPt inBoundsXY at h
  simp only [Bool.and_eq_true, decide_eq_true_eq] at h
  rintro (hc | hc) <;> omega

theorem walk_parents_spec {s : ProgState} {stf : SearchState}
    (hb : ∀ p ∈ uSet s, inBoundsPt p = true)
    (hsrc0 : stf.dist s.start = 0)
    (hU : ∀ p, stf.dist p < INT_MAX → p ∈ uSet s)
    (hpar : ∀ p, stf.dist p < INT_MAX → p ≠ s.start →
      stepOk s (stf.par p) p ∧ stf.dist (stf.par p) + 1 = stf.dist p ∧
      stf.dist (stf.par p) < INT_MAX) :
    ∀ (k : Nat) (fuel : Nat) (p : Point) (acc : List Point),
      stf.dist p = k → k < INT_MAX → k + 1 ≤ fuel →
      ∃ l : List Point,
        walk_parents stf.par s.start fuel p acc = acc ++ l ∧
        l.head? = some p ∧ l.getLast? = some s.start ∧ l.length = k + 1 ∧
        List.Chain' (fun a b => stepOk s b a) l ∧
        List.Pairwise (fun a b => stf.dist b < stf.dist a) l ∧
        (∀ x ∈ l, stf.dist x ≤ k) ∧
        (∀ x ∈ l, stf.dist x < INT_MAX) := by
  intro k
  induction k with
  | zero =>
    intro fuel p acc hd hk hf
    have hdlt : stf.dist p < INT_MAX := by omega
    have hps : p = s.start := by
      by_contra hcon
      obtain ⟨_, h2, _⟩ := hpar p hdlt hcon
      omega
    subst hps
    obtain ⟨f, rfl⟩ : ∃ f, fuel = f + 1 := ⟨fuel - 1, by omega⟩
    have hguard := inBounds_guard (hb _ (hU _ hdlt))
    refine ⟨[s.start], ?_, rfl, rfl, rfl, List.chain'_singleton _, List.pairwise_singleton _ _,
      ?_, ?_⟩
    · simp only [walk_parents]
      rw [if_neg hguard]
      simp
    · intro x hx
      rw [List.mem_singleton.mp hx, hd]
    · intro x hx
      rw [List.mem_singleton.mp hx]
      exact hdlt
  | succ k ihk =>
    intro fuel p acc hd hk hf
    have hdlt : stf.dist p < INT_MAX := by omega
    have hps : p ≠ s.start := by
      intro hcon
      rw [hcon, hsrc0] at hd
      omega
    obtain ⟨ho1, ho2, ho3⟩ := hpar p hdlt hps
    have hdpar : stf.dist (stf.par p) = k := by omega
    obtain ⟨f, rfl⟩ : ∃ f, fuel = f + 1 := ⟨fuel - 1, by omega⟩
    have hguard := inBounds_guard (hb _ (hU _ hdlt))
    obtain ⟨l', hw, hh, hl, hlen, hch, hpw, hle, hmax⟩ :=
      ihk f (stf.par p) (acc ++ [p]) hdpar (by omega) (by omega)
    refine ⟨p :: l', ?_, rfl, ?_, ?_, ?_, ?_, ?_, ?_⟩
    · simp only [walk_parents]
      rw [if_neg hguard, if_neg hps, hw, List.append_assoc]
      rfl
    · cases l' with
      | nil => simp at hlen
      | cons b t =>
        rw [List.getLast?_cons_cons]
        exact hl
    · simp only [List.length_cons]
      omega
    · rw [List.chain'_cons']
      refine ⟨?_, hch⟩
      intro y hy
      rw [hh] at hy
      simp only [Option.mem_def, Option.some.injEq] at hy
      rw [← hy]
      exact ho1
    · rw [List.pairwise_cons]
      refine ⟨?_, hpw⟩
      intro x hx
      have := hle x hx
      rw [hd]
      omega
    · intro x hx
      rcases List.mem_cons.mp hx with rfl | hx'
      · rw [hd]
      · have := hle x hx'
        omega
    · intro x hx
      rcases List.mem_cons.mp hx with rfl | hx'
      · exact hdlt
      · exact hmax x hx'

/-! ## Characterisation of dijkstra_find_path -/

theorem dijkstra_proceed_eq (s : ProgState)
    (hv : is_valid_position s s.start.x s.start.y = true) :
    dijkstra_find_path s =
      match dloop s search_fuel (init_state s.start) with
      | (none, _) => ⟨[], 0, -1⟩
      | (some cur, stf) =>
        { points := (walk_parents stf.par s.start search_fuel s.end_ []).reverse
          length := ((walk_parents stf.par s.start search_fuel s.end_ []).length : Int)
          cost := (cur.cost : Int) } := by
  unfold dijkstra_find_path
  rw [if_neg]
  rw [hv]
  simp

theorem dijkstra_ne_fail_char (s : ProgState) (h : (dijkstra_find_path s).cost ≠ -1) :
    ∃ cur stf, dloop s search_fuel (init_state s.start) = (some cur, stf) ∧
      dijkstra_find_path s =
        { points := (walk_parents stf.par s.start search_fuel s.end_ []).reverse
          length := ((walk_parents stf.par s.start search_fuel s.end_ []).length : Int)
          cost := (cur.cost : Int) } := by
  by_cases hc : (!(is_valid_position s s.start.x s.start.y) &&
      !(!(is_valid_position s s.end_.x s.end_.y) &&
        decide (s.gridPathType s.end_.x s.end_.y ≠ CELL_EMPTY))) = true
  · exfalso
    apply h
    unfold dijkstra_find_path
    rw [if_pos hc]
  · rcases hl : dloop s search_fuel (init_state s.start) with ⟨o, stf⟩
    rcases o with _ | cur
    · exfalso
      apply h
      unfold dijkstra_find_path
      rw [if_neg hc, hl]
    · refine ⟨cur, stf, rfl, ?_⟩
      unfold dijkstra_find_path
      rw [if_neg hc, hl]

theorem dijkstra_main_found (s : ProgState) (hbs : inBoundsPt s.start = true)
    (hbe : inBoundsPt s.end_ = true) (h : (dijkstra_find_path s).cost ≠ -1) :
    (dijkstra_find_path s).points.head? = some s.start ∧
    (dijkstra_find_path s).points.getLast? = some s.end_ ∧
    List.Chain' adjacent (dijkstra_find_path s).points ∧
    (dijkstra_find_path s).points.Nodup ∧
    (∀ x ∈ (dijkstra_find_path s).points, x = s.start ∨ x = s.end_ ∨ validPt s x) ∧
    (dijkstra_find_path s).length = ((dijkstra_find_path s).points.length : Int) ∧
    (dijkstra_find_path s).cost = ((dijkstra_find_path s).points.length : Int) - 1 ∧
    (∀ n, ReachN s n s.end_ → (dijkstra_find_path s).cost ≤ (n : Int)) := by
  obtain ⟨cur, stf, hl, heq⟩ := dijkstra_ne_fail_char s h
  obtain ⟨hpos, hdend, hcb, hreach, hmin, hsrc0, hU, hpar⟩ := dloop_found_spec s hl
  have hb : ∀ p ∈ uSet s, inBoundsPt p = true := fun p hp => (uSet_subset_bounds s hbs hbe hp) |> mem_boundsFinset.mp
  have hdend' : stf.dist s.end_ = cur.cost := hdend
  obtain ⟨l, hw, hh, hlast, hlen, hch, hpw, hle, hmax⟩ :=
    walk_parents_spec hb hsrc0 hU hpar cur.cost search_fuel s.end_ [] hdend'
      (by unfold INT_MAX; omega) (by unfold search_fuel; omega)
  rw [List.nil_append] at hw
  have hpts : (dijkstra_find_path s).points = l.reverse := by rw [heq, hw]
  have hlenf : (dijkstra_find_path s).length = ((walk_parents stf.par s.start search_fuel s.end_ []).length : Int) := by rw [heq]
  have hcost : (dijkstra_find_path s).cost = (cur.cost : Int) := by rw [heq]
  have hnodup : l.Nodup := by
    refine List.Pairwise.imp ?_ hpw
    intro a b hab
    intro hcon
    rw [hcon] at hab
    omega
  refine ⟨?_, ?_, ?_, ?_, ?_, ?_, ?_, ?_⟩
  · rw [hpts, List.head?_reverse]
    exact hlast
  · rw [hpts, List.getLast?_reverse]
    exact hh
  · rw [hpts]
    rw [List.chain'_reverse]
    refine List.Chain'.imp ?_ hch
    intro a b hab
    exact hab.1
  · rw [hpts]
    exact List.nodup_reverse.mpr hnodup
  · intro x hx
    rw [hpts, List.mem_reverse] at hx
    by_cases hxs : x = s.start
    · exact Or.inl hxs
    · obtain ⟨hk1, _, _⟩ := hpar x (hmax x hx) hxs
      rcases hk1.2 with he | hv
    -- placeholder
      · exact Or.inr (Or.inl he)
      · exact Or.inr (Or.inr hv)
  · rw [hlenf, hpts, hw]
    simp
  · rw [hcost, hpts]
    simp only [List.length_reverse]
    rw [hlen]
    push_cast
    omega
  · intro n hre
    rw [hcost]
    have := hmin n hre
    exact_mod_cast this


/-! ## Legal paths versus ReachN -/

theorem head?_append_of_ne_nil {α : Type _} {l l' : List α} (h : l ≠ []) :
    (l ++ l').head? = l.head? := by
  cases l with
  | nil => exact absurd rfl h
  | cons a t => rfl

theorem okPath_ne_nil {s : ProgState} {l : List Point} (h : okPath s l) : l ≠ [] := by
  intro hcon
  rw [hcon] at h
  exact Option.noConfusion h.1

theorem chain_to_reach {s : ProgState} :
    ∀ (l : List Point) (c : Point), l.head? = some s.start →
      List.Chain' adjacent l → (∀ p ∈ l, p = s.end_ ∨ validPt s p) →
      l.getLast? = some c → ReachN s (l.length - 1) c := by
  intro l
  induction l using List.reverseRecOn with
  | nil =>
    intro c hh _ _ hl
    exact Option.noConfusion hl
  | append_singleton t a ih =>
    intro c hh hch hcells hl
    rw [List.getLast?_concat] at hl
    injection hl with hl
    subst hl
    by_cases ht : t = []
    · subst ht
      have hh2 : a = s.start := by simpa using hh
      subst hh2
      exact ReachN.base
    · have hh' : t.head? = some s.start := by
        rw [head?_append_of_ne_nil ht] at hh
        exact hh
      obtain ⟨c', hc'⟩ : ∃ c', t.getLast? = some c' := by
        cases htt : t with
        | nil => exact absurd htt ht
        | cons x xs => exact ⟨(x :: xs).getLast (by simp), List.getLast?_eq_getLast _ _⟩
      rw [List.chain'_append] at hch
      obtain ⟨h1, _, h3⟩ := hch
      have hadj : adjacent c' a := h3 c' hc' a rfl
      have hre := ih c' hh' h1 (fun p hp => hcells p (List.mem_append_left _ hp)) hc'
      have hstep : stepOk s c' a :=
        ⟨hadj, hcells a (List.mem_append_right _ (List.mem_singleton_self _))⟩
      have hfin := ReachN.step hre hstep
      have hlen1 : (t ++ [a]).length - 1 = t.length := by simp
      have hlen2 : t.length - 1 + 1 = t.length := by
        cases t with
        | nil => exact absurd rfl ht
        | cons x xs => simp
      rw [hlen1, ← hlen2]
      exact hfin

theorem okPath_to_reach {s : ProgState} {l : List Point} (h : okPath s l) :
    ReachN s (l.length - 1) s.end_ :=
  chain_to_reach l s.end_ h.1 h.2.2.1 h.2.2.2 h.2.1

theorem reach_to_okPath {s : ProgState} (hvs : validPt s s.start) :
    ∀ {n : Nat} {c : Point}, ReachN s n c →
      ∃ l : List Point, l.head? = some s.start ∧ l.getLast? = some c ∧
        List.Chain' adjacent l ∧ (∀ p ∈ l, p = s.end_ ∨ validPt s p) ∧ l.length = n + 1 := by
  intro n c hre
  induction hre with
  | base =>
    refine ⟨[s.start], rfl, rfl, List.chain'_singleton _, ?_, rfl⟩
    intro p hp
    rw [List.mem_singleton.mp hp]
    exact Or.inr hvs
  | @step n c q hrc hok ih =>
    obtain ⟨l, hh, hl, hch, hcells, hlen⟩ := ih
    have hne : l ≠ [] := by
      intro hcon
      rw [hcon] at hh
      exact Option.noConfusion hh
    refine ⟨l ++ [q], ?_, List.getLast?_concat _, ?_, ?_, ?_⟩
    · rw [head?_append_of_ne_nil hne]
      exact hh
    · rw [List.chain'_append]
      refine ⟨hch, List.chain'_singleton _, ?_⟩
      intro x hx y hy
      rw [hl] at hx
      simp only [Option.mem_def, List.head?_cons, Option.some.injEq] at hx hy
      subst hx
      subst hy
      exact hok.1
    · intro p hp
      rcases List.mem_append.mp hp with hp | hp
      · exact hcells p hp
      · rw [List.mem_singleton.mp hp]
        exact hok.2
    · simp only [List.length_append, List.length_cons, List.length_nil, hlen]

theorem reach_end_to_okPath {s : ProgState} (hvs : validPt s s.start) {n : Nat}
    (hre : ReachN s n s.end_) : ∃ l, okPath s l ∧ l.length = n + 1 := by
  obtain ⟨l, hh, hl, hch, hcells, hlen⟩ := reach_to_okPath hvs hre
  exact ⟨l, ⟨hh, hl, hch, hcells⟩, hlen⟩

/-! ## Failure and success of the full search -/

theorem dijkstra_no_reach (s : ProgState)
    (hv : is_valid_position s s.start.x s.start.y = true)
    (h : ∀ n, ¬ ReachN s n s.end_) : dijkstra_find_path s = ⟨[], 0, -1⟩ := by
  rw [dijkstra_proceed_eq s hv]
  rcases hl : dloop s search_fuel (init_state s.start) with ⟨o, stf⟩
  rcases o with _ | cur
  · rfl
  · exfalso
    obtain ⟨_, _, _, hreach, _⟩ := dloop_found_spec s hl
    exact h cur.cost hreach

theorem dijkstra_reach_success (s : ProgState)
    (hv : is_valid_position s s.start.x s.start.y = true)
    {n : Nat} (h : ReachN s n s.end_) : (dijkstra_find_path s).cost ≠ -1 := by
  rw [dijkstra_proceed_eq s hv]
  rcases hl : dloop s search_fuel (init_state s.start) with ⟨o, stf⟩
  rcases o with _ | cur
  · exfalso
    exact dloop_none_spec s hl n h
  · simp


/-! ## Helper: the last element does not occur earlier in a duplicate-free list -/

theorem getLast_not_mem_dropLast {α : Type _} {l : List α} (hnd : l.Nodup) {a : α}
    (hl : l.getLast? = some a) : a ∉ l.dropLast := by
  intro hmem
  have hne : l ≠ [] := by
    intro hcon
    rw [hcon] at hl
    exact Option.noConfusion hl
  have hdec := List.dropLast_append_getLast hne
  have ha : l.getLast hne = a := by
    rw [List.getLast?_eq_getLast l hne] at hl
    injection hl
  rw [← hdec, List.nodup_append] at hnd
  obtain ⟨_, _, hdisj⟩ := hnd
  exact hdisj hmem (List.mem_singleton.mpr ha.symm)

/-! ## Claim theorems about the single search -/

/-- The full functional specification of one search from a valid source:
soundness, cost formula and minimality when a legal path exists, and the
exact failure value when none does. -/
theorem dijkstra_spec_valid (s : ProgState)
    (hv : is_valid_position s s.start.x s.start.y = true)
    (hbe : inBoundsPt s.end_ = true) :
    ((∃ l, okPath s l) →
      okPath s (dijkstra_find_path s).points ∧
      (dijkstra_find_path s).cost = ((dijkstra_find_path s).points.length : Int) - 1 ∧
      (∀ l, okPath s l → (dijkstra_find_path s).points.length ≤ l.length)) ∧
    ((¬ ∃ l, okPath s l) →
      (dijkstra_find_path s).cost = -1 ∧ (dijkstra_find_path s).length = 0) := by
  have hbs : inBoundsPt s.start = true := validPt_inBounds hv
  constructor
  · rintro ⟨l0, hl0⟩
    have hre0 := okPath_to_reach hl0
    have hne := dijkstra_reach_success s hv hre0
    obtain ⟨hh, hlast, hch, hnd, hcells, hlen, hcost, hmin⟩ := dijkstra_main_found s hbs hbe hne
    refine ⟨⟨hh, hlast, hch, ?_⟩, hcost, ?_⟩
    · intro p hp
      rcases hcells p hp with rfl | h | h
      · exact Or.inr hv
      · exact Or.inl h
      · exact Or.inr h
    · intro l hl
      have h1 := hmin _ (okPath_to_reach hl)
      rw [hcost] at h1
      have h2 : 1 ≤ l.length := List.length_pos.mpr (okPath_ne_nil hl)
      omega
  · intro hno
    have hfail : dijkstra_find_path s = ⟨[], 0, -1⟩ := by
      apply dijkstra_no_reach s hv
      intro n hre
      obtain ⟨l, hl, _⟩ := reach_end_to_okPath hv hre
      exact hno ⟨l, hl⟩
    rw [hfail]
    exact ⟨rfl, rfl⟩

/-- C1 (amended): for every state whose source cell is a valid position and
whose sink is in bounds, `dijkstra_find_path` returns a legal source-to-sink
path of minimal length (cost = number of edges) whenever one exists, and the
`cost = -1, length = 0` failure value when none exists.  (The amendment
restricts the claim to valid sources: when the source is blocked but the sink
carries a rank label, the C code searches anyway — see the counterexample.) -/
theorem claim_c1_search_minimality (s : ProgState)
    (hv : is_valid_position s s.start.x s.start.y = true)
    (hbe : inBoundsPt s.end_ = true) :
    ((∃ l, okPath s l) →
      okPath s (dijkstra_find_path s).points ∧
      (dijkstra_find_path s).cost = ((dijkstra_find_path s).points.length : Int) - 1 ∧
      (∀ l, okPath s l → (dijkstra_find_path s).points.length ≤ l.length)) ∧
    ((¬ ∃ l, okPath s l) →
      (dijkstra_find_path s).cost = -1 ∧ (dijkstra_find_path s).length = 0) :=
  dijkstra_spec_valid s hv hbe

/-- C1 counterexample: in the state `cexC1` (source cell is a Wall, end cell
carries a rank label) no legal source-to-sink path exists, yet the search does
not return the failure value, refuting the claim as stated over all states. -/
theorem claim_c1_counterexample :
    ¬ ((¬ ∃ l, okPath cexC1 l) →
      (dijkstra_find_path cexC1).cost = -1 ∧ (dijkstra_find_path cexC1).length = 0) := by
  intro hcl
  have hno : ¬ ∃ l, okPath cexC1 l := by
    rintro ⟨l, hl⟩
    unfold okPath at hl
    obtain ⟨hh, hlast, hch, hcells⟩ := hl
    have hmem : cexC1.start ∈ l := by
      cases l with
      | nil => exact Option.noConfusion hh
      | cons a t =>
        injection hh with hh
        rw [← hh]
        exact List.mem_cons_self _ _
    rcases hcells _ hmem with he | hv
    · exact absurd he (by decide)
    · exact absurd hv (by decide)
  have h1 := (hcl hno).1
  have h2 : (dijkstra_find_path cexC1).cost = 1 := by decide
  rw [h2] at h1
  exact absurd h1 (by decide)

/-- Witness for C1: a concrete state with a valid source, an in-bounds sink
and an existing path, at which the (amended) theorem applies. -/
theorem claim_c1_witness :
    (is_valid_position wC1 wC1.start.x wC1.start.y = true) ∧
    (inBoundsPt wC1.end_ = true) ∧
    (((∃ l, okPath wC1 l) →
      okPath wC1 (dijkstra_find_path wC1).points ∧
      (dijkstra_find_path wC1).cost = ((dijkstra_find_path wC1).points.length : Int) - 1 ∧
      (∀ l, okPath wC1 l → (dijkstra_find_path wC1).points.length ≤ l.length)) ∧
    ((¬ ∃ l, okPath wC1 l) →
      (dijkstra_find_path wC1).cost = -1 ∧ (dijkstra_find_path wC1).length = 0)) :=
  ⟨by decide, by decide, claim_c1_search_minimality wC1 (by decide) (by decide)⟩

/-- C4: every path returned with `cost ≠ -1` (for in-bounds endpoints, the
only configurations the C arrays admit) is an ordered 4-connected chain from
the start to the end, its `length` field counts its points, and its cost is
its length minus one. -/
theorem claim_c4_path_shape (s : ProgState)
    (hbs : inBoundsPt s.start = true) (hbe : inBoundsPt s.end_ = true)
    (h : (dijkstra_find_path s).cost ≠ -1) :
    (dijkstra_find_path s).points.head? = some s.start ∧
    (dijkstra_find_path s).points.getLast? = some s.end_ ∧
    List.Chain' adjacent (dijkstra_find_path s).points ∧
    (dijkstra_find_path s).length = ((dijkstra_find_path s).points.length : Int) ∧
    (dijkstra_find_path s).cost = ((dijkstra_find_path s).points.length : Int) - 1 := by
  obtain ⟨h1, h2, h3, _, _, h6, h7, _⟩ := dijkstra_main_found s hbs hbe h
  exact ⟨h1, h2, h3, h6, h7⟩

/-- Witness for C4 at the two-cell corridor state. -/
theorem claim_c4_witness :
    (inBoundsPt wC1.start = true) ∧ (inBoundsPt wC1.end_ = true) ∧
    ((dijkstra_find_path wC1).cost ≠ -1) ∧
    ((dijkstra_find_path wC1).points.head? = some wC1.start ∧
     (dijkstra_find_path wC1).points.getLast? = some wC1.end_ ∧
     List.Chain' adjacent (dijkstra_find_path wC1).points ∧
     (dijkstra_find_path wC1).length = ((dijkstra_find_path wC1).points.length : Int) ∧
     (dijkstra_find_path wC1).cost = ((dijkstra_find_path wC1).points.length : Int) - 1) :=
  ⟨by decide, by decide, by decide, claim_c4_path_shape wC1 (by decide) (by decide) (by decide)⟩

/-- C5 (amended): when the source cell is a Wall or carries a rank label, the
search fails immediately with `cost = -1, length = 0` — unless the end cell is
simultaneously invalid and rank-labelled, in which case the C pre-check lets
the search proceed (see the counterexample for the unamended claim). -/
theorem claim_c5_blocked_source (s : ProgState)
    (hbs : inBoundsPt s.start = true)
    (hblk : s.grid s.start.x s.start.y = CELL_WALL ∨
      s.gridPathType s.start.x s.start.y ≠ CELL_EMPTY)
    (hexc : ¬ (is_valid_position s s.end_.x s.end_.y = false ∧
      s.gridPathType s.end_.x s.end_.y ≠ CELL_EMPTY)) :
    dijkstra_find_path s = ⟨[], 0, -1⟩ := by
  have hvs : is_valid_position s s.start.x s.start.y = false := by
    rw [Bool.eq_false_iff]
    intro hcon
    have hval := (validPt_iff s s.start).mp hcon
    rcases hblk with hb | hb
    · exact hval.2.1 hb
    · exact hb hval.2.2
  have hinner : (!(is_valid_position s s.end_.x s.end_.y) &&
      decide (s.gridPathType s.end_.x s.end_.y ≠ CELL_EMPTY)) = false := by
    rw [Bool.eq_false_iff]
    intro hcon
    simp only [Bool.and_eq_true, Bool.not_eq_true', decide_eq_true_eq] at hcon
    exact hexc hcon
  have hcond : (!(is_valid_position s s.start.x s.start.y) &&
      !(!(is_valid_position s s.end_.x s.end_.y) &&
        decide (s.gridPathType s.end_.x s.end_.y ≠ CELL_EMPTY))) = true := by
    rw [hvs, hinner]
    rfl
  unfold dijkstra_find_path
  rw [if_pos hcond]

/-- C5 counterexample: in `cexC5` the source cell is a Wall, yet (because the
end cell carries a rank label) the search succeeds instead of failing,
refuting the claim as stated. -/
theorem claim_c5_counterexample :
    ¬ ((cexC5.grid cexC5.start.x cexC5.start.y = CELL_WALL ∨
        cexC5.gridPathType cexC5.start.x cexC5.start.y ≠ CELL_EMPTY) →
      (dijkstra_find_path cexC5).cost = -1 ∧ (dijkstra_find_path cexC5).length = 0) := by
  intro hcl
  have h1 := (hcl (Or.inl (by decide))).1
  have h2 : (dijkstra_find_path cexC5).cost = 1 := by decide
  rw [h2] at h1
  exact absurd h1 (by decide)

/-- Witness for C5: a Wall-start state with an empty-labelled end cell, where
the amended theorem applies and the search indeed fails. -/
theorem claim_c5_witness :
    (inBoundsPt cexC1.start = true) ∧
    (cexC1.grid cexC1.start.x cexC1.start.y = CELL_WALL) ∧
    dijkstra_find_path { cexC1 with gridPathType := fun _ _ => CELL_EMPTY } = ⟨[], 0, -1⟩ :=
  ⟨by decide, by decide,
    claim_c5_blocked_source { cexC1 with gridPathType := fun _ _ => CELL_EMPTY }
      (by decide) (Or.inl (by decide)) (by decide)⟩

/-- C6: a search whose sink cell is a Wall or already rank-labelled still
treats the sink as a legal target: whenever a legal path exists it succeeds,
and the returned path ends exactly at the sink, which is never an interior
point. -/
theorem claim_c6_sink_exception (s : ProgState)
    (hv : is_valid_position s s.start.x s.start.y = true)
    (hbe : inBoundsPt s.end_ = true)
    (hblock : s.grid s.end_.x s.end_.y = CELL_WALL ∨
      s.gridPathType s.end_.x s.end_.y ≠ CELL_EMPTY)
    (hex : ∃ l, okPath s l) :
    (dijkstra_find_path s).cost ≠ -1 ∧
    (dijkstra_find_path s).points.getLast? = some s.end_ ∧
    s.end_ ∉ (dijkstra_find_path s).points.dropLast := by
  obtain ⟨l0, hl0⟩ := hex
  have hne := dijkstra_reach_success s hv (okPath_to_reach hl0)
  obtain ⟨_, hlast, _, hnd, _, _, _, _⟩ :=
    dijkstra_main_found s (validPt_inBounds hv) hbe hne
  exact ⟨hne, hlast, getLast_not_mem_dropLast hnd hlast⟩

/-- Witness for C6 at a state whose end cell carries `CELL_PATH_1`. -/
theorem claim_c6_witness :
    (is_valid_position wC6 wC6.start.x wC6.start.y = true) ∧
    (inBoundsPt wC6.end_ = true) ∧
    (wC6.gridPathType wC6.end_.x wC6.end_.y ≠ CELL_EMPTY) ∧
    ((dijkstra_find_path wC6).cost ≠ -1 ∧
     (dijkstra_find_path wC6).points.getLast? = some wC6.end_ ∧
     wC6.end_ ∉ (dijkstra_find_path wC6).points.dropLast) :=
  ⟨by decide, by decide, by decide,
    claim_c6_sink_exception wC6 (by decide) (by decide) (Or.inr (by decide))
      ⟨[⟨0, 0⟩, ⟨0, 1⟩],
        ⟨by decide, by decide, List.chain'_pair.mpr (by decide), by decide⟩⟩⟩

/-- C9: in every state of the main loop (for in-bounds endpoints), the node
array holds pairwise-distinct, in-bounds cells, so its length never exceeds
the `GRID_WIDTH * GRID_HEIGHT = 300` capacity of the C array and every
`nodes[node_count++]` write is in bounds. -/
theorem claim_c9_queue_bound (s : ProgState)
    (hbs : inBoundsPt s.start = true) (hbe : inBoundsPt s.end_ = true)
    (st : SearchState) (hr : SearchReach s st) :
    (st.nodes.map Node.pos).Nodup ∧
    (∀ e ∈ st.nodes, inBoundsPt e.pos = true) ∧
    st.nodes.length ≤ 300 := by
  have hInv : Inv s st := by
    induction hr with
    | refl => exact inv_init s
    | tail hab hbc ih => exact (dstep_eq_inl ih hbc).1
  have hin : ∀ e ∈ st.nodes, e.pos ∈ boundsFinset := by
    intro e he
    have h1 := hInv.entries_dist e he
    have h2 := hInv.entry_cost_lt he
    exact uSet_subset_bounds s hbs hbe (hInv.pushed_in e.pos (by omega))
  refine ⟨hInv.nodup, fun e he => mem_boundsFinset.mp (hin e he), ?_⟩
  have hlen : (st.nodes.map Node.pos).toFinset.card = st.nodes.length := by
    rw [List.toFinset_card_of_nodup hInv.nodup]
    exact List.length_map _ _
  have hsub : (st.nodes.map Node.pos).toFinset ⊆ boundsFinset := by
    intro p hp
    rw [List.mem_toFinset] at hp
    obtain ⟨e, he, hpe⟩ := List.mem_map.mp hp
    rw [← hpe]
    exact hin e he
  have := Finset.card_le_card hsub
  rw [hlen, boundsFinset_card] at this
  exact this

/-- Witness for C9 at the initial loop state of the corridor search. -/
theorem claim_c9_witness :
    (inBoundsPt wC1.start = true) ∧ (inBoundsPt wC1.end_ = true) ∧
    (((init_state wC1.start).nodes.map Node.pos).Nodup ∧
     (∀ e ∈ (init_state wC1.start).nodes, inBoundsPt e.pos = true) ∧
     (init_state wC1.start).nodes.length ≤ 300) :=
  ⟨by decide, by decide,
    claim_c9_queue_bound wC1 (by decide) (by decide) (init_state wC1.start)
      Relation.ReflTransGen.refl⟩


/-! ## Marking lemmas (the orchestrator's blocking updates) -/

theorem mark_state_grid (s : ProgState) (t : CellType) (pts : List Point) :
    (mark_state s t pts).grid = s.grid := rfl

theorem mark_state_start (s : ProgState) (t : CellType) (pts : List Point) :
    (mark_state s t pts).start = s.start := rfl

theorem mark_state_end (s : ProgState) (t : CellType) (pts : List Point) :
    (mark_state s t pts).end_ = s.end_ := rfl

theorem mark_fold_pathtype (st en : Point) (t : CellType) :
    ∀ (pts : List Point) (g : Int → Int → CellType) (x y : Int),
      pts.foldl (mark_cell st en t) g x y = g x y ∨
      (pts.foldl (mark_cell st en t) g x y = t ∧
        ∃ p ∈ pts, p ≠ st ∧ p ≠ en ∧ p.x = x ∧ p.y = y) := by
  intro pts
  induction pts with
  | nil => intro g x y; exact Or.inl rfl
  | cons q pts ih =>
    intro g x y
    rw [List.foldl_cons]
    rcases ih (mark_cell st en t g q) x y with h | ⟨h, p, hp, h1, h2, h3, h4⟩
    · rw [h]
      unfold mark_cell
      split_ifs with hq
      · exact Or.inl rfl
      · unfold upd2
        split_ifs with hxy
        · push_neg at hq
          refine Or.inr ⟨rfl, q, List.mem_cons_self _ _, hq.1, hq.2, hxy.1.symm, hxy.2.symm⟩
        · exact Or.inl rfl
    · exact Or.inr ⟨h, p, List.mem_cons_of_mem _ hp, h1, h2, h3, h4⟩

theorem mark_fold_sets (st en : Point) (t : CellType) :
    ∀ (pts : List Point) (g : Int → Int → CellType) (p : Point), p ∈ pts → p ≠ st → p ≠ en →
      pts.foldl (mark_cell st en t) g p.x p.y = t := by
  intro pts
  induction pts with
  | nil => intro g p hp; exact absurd hp (List.not_mem_nil p)
  | cons q pts ih =>
    intro g p hp h1 h2
    rw [List.foldl_cons]
    rcases List.mem_cons.mp hp with rfl | hp'
    · rcases mark_fold_pathtype st en t pts (mark_cell st en t g p) p.x p.y with h | ⟨h, _⟩
      · rw [h]
        unfold mark_cell
        rw [if_neg (by push_neg; exact ⟨h1, h2⟩)]
        unfold upd2
        rw [if_pos ⟨rfl, rfl⟩]
      · exact h
    · exact ih (mark_cell st en t g q) p hp' h1 h2

theorem mark_pathtype_at_start (s : ProgState) (t : CellType) (pts : List Point) :
    (mark_state s t pts).gridPathType s.start.x s.start.y =
      s.gridPathType s.start.x s.start.y := by
  rcases mark_fold_pathtype s.start s.end_ t pts s.gridPathType s.start.x s.start.y with
    h | ⟨_, p, _, h1, _, h3, h4⟩
  · exact h
  · exact absurd (point_eq_iff.mpr ⟨h3, h4⟩) h1

theorem mark_pathtype_at_end (s : ProgState) (t : CellType) (pts : List Point) :
    (mark_state s t pts).gridPathType s.end_.x s.end_.y =
      s.gridPathType s.end_.x s.end_.y := by
  rcases mark_fold_pathtype s.start s.end_ t pts s.gridPathType s.end_.x s.end_.y with
    h | ⟨_, p, _, _, h2, h3, h4⟩
  · exact h
  · exact absurd (point_eq_iff.mpr ⟨h3, h4⟩) h2

theorem mark_validStart (s : ProgState) (t : CellType) (pts : List Point)
    (h : is_valid_position s s.start.x s.start.y = true) :
    is_valid_position (mark_state s t pts) s.start.x s.start.y = true := by
  have h1 := (validPt_iff s s.start).mp h
  refine (validPt_iff (mark_state s t pts) s.start).mpr ⟨h1.1, ?_, ?_⟩
  · rw [mark_state_grid]
    exact h1.2.1
  · rw [mark_pathtype_at_start]
    exact h1.2.2

theorem mark_valid_mono (s : ProgState) (t : CellType) (ht : t ≠ CELL_EMPTY)
    (pts : List Point) (p : Point) (h : validPt (mark_state s t pts) p) : validPt s p := by
  have h1 := (validPt_iff _ p).mp h
  refine (validPt_iff s p).mpr ⟨h1.1, h1.2.1, ?_⟩
  rcases mark_fold_pathtype s.start s.end_ t pts s.gridPathType p.x p.y with h2 | ⟨h2, _⟩
  · rw [← h2]
    exact h1.2.2
  · exact absurd (h2 ▸ h1.2.2) ht

theorem mark_okPath_mono (s : ProgState) (t : CellType) (ht : t ≠ CELL_EMPTY)
    (pts : List Point) (l : List Point) (h : okPath (mark_state s t pts) l) : okPath s l := by
  obtain ⟨hh, hl, hch, hcells⟩ := h
  refine ⟨hh, hl, hch, ?_⟩
  intro p hp
  rcases hcells p hp with he | hv
  · exact Or.inl he
  · exact Or.inr (mark_valid_mono s t ht pts p hv)

theorem path_type_for_ne {i : Nat} (h : i < 5) : path_type_for i ≠ CELL_EMPTY := by
  interval_cases i <;> decide

/-! ## The K-path loop -/

theorem run_paths_spec :
    ∀ (rem i : Nat) (s : ProgState), rem + i ≤ K_PATHS →
      is_valid_position s s.start.x s.start.y = true →
      inBoundsPt s.end_ = true →
      (∀ q ∈ (run_paths rem i s).2, okPath s q.points ∧
         q.cost = (q.points.length : Int) - 1) ∧
      List.Pairwise (fun a b => a.cost ≤ b.cost) (run_paths rem i s).2 ∧
      List.Pairwise (fun a b => ∀ p, p ∈ a.points → p ∈ b.points →
        p = s.start ∨ p = s.end_) (run_paths rem i s).2 := by
  intro rem
  induction rem with
  | zero =>
    intro i s _ _ _
    refine ⟨?_, ?_, ?_⟩ <;> simp [run_paths]
  | succ rem ih =>
    intro i s hik hv hbe
    by_cases hc : (dijkstra_find_path s).cost = -1
    · have hres : run_paths (rem + 1) i s = (s, []) := by
        simp [run_paths, hc]
      rw [hres]
      refine ⟨?_, ?_, ?_⟩ <;> simp
    · have ht : path_type_for i ≠ CELL_EMPTY := path_type_for_ne (by unfold K_PATHS at hik; omega)
      have hex : ∃ l, okPath s l := by
        by_contra hno
        exact hc ((dijkstra_spec_valid s hv hbe).2 hno).1
      obtain ⟨hok, hcost, hmin⟩ := (dijkstra_spec_valid s hv hbe).1 hex
      set P := dijkstra_find_path s with hP
      set s' := mark_state s (path_type_for i) P.points with hs'
      have hres : run_paths (rem + 1) i s =
          ((run_paths rem (i + 1) s').1, P :: (run_paths rem (i + 1) s').2) := by
        simp [run_paths, hc]
      have hv' : is_valid_position s' s'.start.x s'.start.y = true :=
        mark_validStart s (path_type_for i) P.points hv
      have hbe' : inBoundsPt s'.end_ = true := hbe
      obtain ⟨iha, ihb, ihc⟩ := ih (i + 1) s' (by omega) hv' hbe'
      rw [hres]
      refine ⟨?_, ?_, ?_⟩
      · intro q hq
        rcases List.mem_cons.mp hq with rfl | hq'
        · exact ⟨hok, hcost⟩
        · obtain ⟨hq1, hq2⟩ := iha q hq'
          exact ⟨mark_okPath_mono s (path_type_for i) ht P.points q.points hq1, hq2⟩
      · rw [List.pairwise_cons]
        refine ⟨?_, ihb⟩
        intro q hq
        obtain ⟨hq1, hq2⟩ := iha q hq
        have hqok : okPath s q.points :=
          mark_okPath_mono s (path_type_for i) ht P.points q.points hq1
        have h1 := hmin q.points hqok
        have h2 : 1 ≤ q.points.length := List.length_pos.mpr (okPath_ne_nil hqok)
        rw [hcost, hq2]
        omega
      · rw [List.pairwise_cons]
        refine ⟨?_, ihc⟩
        intro q hq p hpP hpq
        by_cases hps : p = s.start
        · exact Or.inl hps
        by_cases hpe : p = s.end_
        · exact Or.inr hpe
        exfalso
        have hmark : s'.gridPathType p.x p.y = path_type_for i :=
          mark_fold_sets s.start s.end_ (path_type_for i) P.points s.gridPathType p hpP hps hpe
        obtain ⟨hq1, _⟩ := iha q hq
        rcases hq1.2.2.2 p hpq with he | hv2
        · exact hpe he
        · have := ((validPt_iff s' p).mp hv2).2.2
          rw [hmark] at this
          exact ht this

theorem run_paths_stop :
    ∀ (rem i : Nat) (s : ProgState),
      (run_paths rem i s).2.length ≤ rem ∧
      ((run_paths rem i s).2.length < rem →
        (dijkstra_find_path (run_paths rem i s).1).cost = -1) := by
  intro rem
  induction rem with
  | zero =>
    intro i s
    refine ⟨?_, ?_⟩ <;> simp [run_paths]
  | succ rem ih =>
    intro i s
    by_cases hc : (dijkstra_find_path s).cost = -1
    · have hres : run_paths (rem + 1) i s = (s, []) := by
        simp [run_paths, hc]
      rw [hres]
      exact ⟨by simp, fun _ => hc⟩
    · set s' := mark_state s (path_type_for i) (dijkstra_find_path s).points
      have hres : run_paths (rem + 1) i s =
          ((run_paths rem (i + 1) s').1, dijkstra_find_path s :: (run_paths rem (i + 1) s').2) := by
        simp [run_paths, hc]
      rw [hres]
      obtain ⟨ih1, ih2⟩ := ih (i + 1) s'
      constructor
      · simp only [List.length_cons]
        omega
      · intro hlt
        simp only [List.length_cons] at hlt
        exact ih2 (by omega)

/-! ## Claim theorems about the orchestrator -/

/-- C2: any two paths returned by the K-iteration loop share no point other
than the designated Start and End (their interiors are disjoint). -/
theorem claim_c2_disjoint (s : ProgState)
    (hv : is_valid_position s s.start.x s.start.y = true)
    (hbe : inBoundsPt s.end_ = true) :
    List.Pairwise (fun a b => ∀ p, p ∈ a.points → p ∈ b.points →
      p = s.start ∨ p = s.end_) (run_paths K_PATHS 0 s).2 :=
  (run_paths_spec K_PATHS 0 s (by omega) hv hbe).2.2

/-- Witness for C2 at the 3×3 free-region state. -/
theorem claim_c2_witness :
    (is_valid_position wFree33 wFree33.start.x wFree33.start.y = true) ∧
    (inBoundsPt wFree33.end_ = true) ∧
    List.Pairwise (fun a b => ∀ p, p ∈ a.points → p ∈ b.points →
      p = wFree33.start ∨ p = wFree33.end_) (run_paths K_PATHS 0 wFree33).2 :=
  ⟨by decide, by decide, claim_c2_disjoint wFree33 (by decide) (by decide)⟩

/-- C3: the costs of the paths returned by the orchestrator form a
non-decreasing sequence across ranks. -/
theorem claim_c3_monotone (s : ProgState)
    (hv : is_valid_position s s.start.x s.start.y = true)
    (hbe : inBoundsPt s.end_ = true) :
    List.Pairwise (fun a b => a.cost ≤ b.cost) (run_paths K_PATHS 0 s).2 :=
  (run_paths_spec K_PATHS 0 s (by omega) hv hbe).2.1

/-- Witness for C3 at the 3×3 free-region state. -/
theorem claim_c3_witness :
    (is_valid_position wFree33 wFree33.start.x wFree33.start.y = true) ∧
    (inBoundsPt wFree33.end_ = true) ∧
    List.Pairwise (fun a b => a.cost ≤ b.cost) (run_paths K_PATHS 0 wFree33).2 :=
  ⟨by decide, by decide, claim_c3_monotone wFree33 (by decide) (by decide)⟩

/-- C7: the K-iteration loop returns at most `K_PATHS` paths (ranks in
discovery order by position), and when it returns fewer the very next search
on the final state fails with cost −1 (the loop stopped at the first failing
search; exhaustion, not an error). -/
theorem claim_c7_early_stop (s : ProgState) :
    (run_paths K_PATHS 0 s).2.length ≤ K_PATHS ∧
    ((run_paths K_PATHS 0 s).2.length < K_PATHS →
      (dijkstra_find_path (run_paths K_PATHS 0 s).1).cost = -1) :=
  run_paths_stop K_PATHS 0 s


/-! ## Field preservation through the K-path loop -/

theorem run_paths_proj : ∀ (rem i : Nat) (s : ProgState),
    (run_paths rem i s).1.grid = s.grid ∧
    (run_paths rem i s).1.start = s.start ∧
    (run_paths rem i s).1.end_ = s.end_ ∧
    (run_paths rem i s).1.start_selected = s.start_selected ∧
    (run_paths rem i s).1.end_selected = s.end_selected ∧
    (run_paths rem i s).1.paths_found_and_drawn = s.paths_found_and_drawn := by
  intro rem
  induction rem with
  | zero => intro i s; exact ⟨rfl, rfl, rfl, rfl, rfl, rfl⟩
  | succ rem ih =>
    intro i s
    by_cases hc : (dijkstra_find_path s).cost = -1
    · have hres : run_paths (rem + 1) i s = (s, []) := by
        simp [run_paths, hc]
      rw [hres]
      exact ⟨rfl, rfl, rfl, rfl, rfl, rfl⟩
    · have hres : (run_paths (rem + 1) i s).1 =
          (run_paths rem (i + 1)
            (mark_state s (path_type_for i) (dijkstra_find_path s).points)).1 := by
        simp [run_paths, hc]
      rw [hres]
      exact ih (i + 1) (mark_state s (path_type_for i) (dijkstra_find_path s).points)

theorem run_paths_pathtype_start : ∀ (rem i : Nat) (s : ProgState),
    (run_paths rem i s).1.gridPathType s.start.x s.start.y =
      s.gridPathType s.start.x s.start.y := by
  intro rem
  induction rem with
  | zero => intro i s; rfl
  | succ rem ih =>
    intro i s
    by_cases hc : (dijkstra_find_path s).cost = -1
    · have hres : run_paths (rem + 1) i s = (s, []) := by
        simp [run_paths, hc]
      rw [hres]
    · have hres : (run_paths (rem + 1) i s).1 =
          (run_paths rem (i + 1)
            (mark_state s (path_type_for i) (dijkstra_find_path s).points)).1 := by
        simp [run_paths, hc]
      rw [hres]
      exact (ih (i + 1) (mark_state s (path_type_for i) (dijkstra_find_path s).points)).trans
        (mark_pathtype_at_start s (path_type_for i) (dijkstra_find_path s).points)

theorem run_paths_pathtype_end : ∀ (rem i : Nat) (s : ProgState),
    (run_paths rem i s).1.gridPathType s.end_.x s.end_.y =
      s.gridPathType s.end_.x s.end_.y := by
  intro rem
  induction rem with
  | zero => intro i s; rfl
  | succ rem ih =>
    intro i s
    by_cases hc : (dijkstra_find_path s).cost = -1
    · have hres : run_paths (rem + 1) i s = (s, []) := by
        simp [run_paths, hc]
      rw [hres]
    · have hres : (run_paths (rem + 1) i s).1 =
          (run_paths rem (i + 1)
            (mark_state s (path_type_for i) (dijkstra_find_path s).points)).1 := by
        simp [run_paths, hc]
      rw [hres]
      exact (ih (i + 1) (mark_state s (path_type_for i) (dijkstra_find_path s).points)).trans
        (mark_pathtype_at_end s (path_type_for i) (dijkstra_find_path s).points)

theorem run_paths_pathtype_oob : ∀ (rem i : Nat) (s : ProgState),
    is_valid_position s s.start.x s.start.y = true →
    inBoundsPt s.end_ = true →
    ∀ x y : Int, inBoundsXY x y = false →
      (run_paths rem i s).1.gridPathType x y = s.gridPathType x y := by
  intro rem
  induction rem with
  | zero => intro i s _ _ x y _; rfl
  | succ rem ih =>
    intro i s hv hbe x y hxy
    by_cases hc : (dijkstra_find_path s).cost = -1
    · have hres : run_paths (rem + 1) i s = (s, []) := by
        simp [run_paths, hc]
      rw [hres]
    · have hex : ∃ l, okPath s l := by
        by_contra hno
        exact hc ((dijkstra_spec_valid s hv hbe).2 hno).1
      obtain ⟨hok, _, _⟩ := (dijkstra_spec_valid s hv hbe).1 hex
      have hres : (run_paths (rem + 1) i s).1 =
          (run_paths rem (i + 1)
            (mark_state s (path_type_for i) (dijkstra_find_path s).points)).1 := by
        simp [run_paths, hc]
      rw [hres]
      have hv' := mark_validStart s (path_type_for i) (dijkstra_find_path s).points hv
      have h2 := ih (i + 1) (mark_state s (path_type_for i) (dijkstra_find_path s).points)
        hv' hbe x y hxy
      rw [h2]
      rcases mark_fold_pathtype s.start s.end_ (path_type_for i)
          (dijkstra_find_path s).points s.gridPathType x y with
        hcase | ⟨_, q, hq, _, hqe, hqx, hqy⟩
      · exact hcase
      · exfalso
        rcases hok.2.2.2 q hq with he | hvq
        · exact hqe he
        · have hb : inBoundsPt q = true := validPt_inBounds hvq
          unfold inBoundsPt at hb
          rw [hqx, hqy] at hb
          rw [hb] at hxy
          exact Bool.noConfusion hxy

theorem run_paths_validStart (rem i : Nat) (s : ProgState)
    (hv : is_valid_position s s.start.x s.start.y = true) :
    is_valid_position (run_paths rem i s).1 s.start.x s.start.y = true := by
  have h1 := (validPt_iff s s.start).mp hv
  refine (validPt_iff (run_paths rem i s).1 s.start).mpr ⟨h1.1, ?_, ?_⟩
  · rw [(run_paths_proj rem i s).1]
    exact h1.2.1
  · rw [run_paths_pathtype_start rem i s]
    exact h1.2.2

/-! ## The click handler's branches -/

theorem inBoundsPt_false_iff (p : Point) :
    inBoundsPt p = false ↔
      (p.x < 0 ∨ p.x ≥ GRID_WIDTH ∨ p.y < 0 ∨ p.y ≥ GRID_HEIGHT) := by
  constructor
  · intro h
    by_contra hno
    push_neg at hno
    have hb : inBoundsPt p = true := by
      unfold inBoundsPt inBoundsXY
      simp only [Bool.and_eq_true, decide_eq_true_eq]
      refine ⟨⟨⟨?_, ?_⟩, ?_⟩, ?_⟩ <;> omega
    rw [hb] at h
    exact Bool.noConfusion h
  · intro hor
    cases hb : inBoundsPt p
    · rfl
    · exfalso
      unfold inBoundsPt inBoundsXY at hb
      simp only [Bool.and_eq_true, decide_eq_true_eq] at hb
      obtain ⟨⟨⟨h1, h2⟩, h3⟩, h4⟩ := hb
      rcases hor with h5 | h5 | h5 | h5 <;> omega

theorem inBounds_of_not_oob {p : Point}
    (h : ¬(p.x < 0 ∨ p.x ≥ GRID_WIDTH ∨ p.y < 0 ∨ p.y ≥ GRID_HEIGHT)) :
    inBoundsPt p = true := by
  cases hb : inBoundsPt p
  · exact absurd ((inBoundsPt_false_iff p).mp hb) h
  · rfl

theorem handle_click_fail_eq (s : ProgState) (p : Point)
    (h1 : s.start_selected = true) (h2 : s.end_selected = false)
    (h3 : s.paths_found_and_drawn = false)
    (hc : inBoundsPt p = false ∨ s.grid p.x p.y = CELL_WALL ∨ p = s.start) :
    handle_click_grid s p = (s, []) := by
  unfold handle_click_grid
  rcases hc with hb | hw | hps
  · rw [if_pos ((inBoundsPt_false_iff p).mp hb)]
  · by_cases hb : (p.x < 0 ∨ p.x ≥ GRID_WIDTH ∨ p.y < 0 ∨ p.y ≥ GRID_HEIGHT)
    · rw [if_pos hb]
    · rw [if_neg hb, h3, if_neg (by simp), if_pos hw]
  · by_cases hb : (p.x < 0 ∨ p.x ≥ GRID_WIDTH ∨ p.y < 0 ∨ p.y ≥ GRID_HEIGHT)
    · rw [if_pos hb]
    · by_cases hw : s.grid p.x p.y = CELL_WALL
      · rw [if_neg hb, h3, if_neg (by simp), if_pos hw]
      · rw [if_neg hb, h3, if_neg (by simp), if_neg hw, h1, if_neg (by simp), h2,
          if_pos (by simp), if_pos hps]

theorem handle_click_success_eq (s : ProgState) (p : Point)
    (h1 : s.start_selected = true) (h2 : s.end_selected = false)
    (h3 : s.paths_found_and_drawn = false)
    (hb : inBoundsPt p = true) (hw : s.grid p.x p.y ≠ CELL_WALL) (hps : p ≠ s.start) :
    handle_click_grid s p =
      run_paths K_PATHS 0 { s with end_ := p, grid := upd2 s.grid p CELL_END,
                                   end_selected := true, paths_found_and_drawn := true } := by
  have hnb : ¬(p.x < 0 ∨ p.x ≥ GRID_WIDTH ∨ p.y < 0 ∨ p.y ≥ GRID_HEIGHT) := by
    intro hcon
    exact Bool.noConfusion (hb.symm.trans ((inBoundsPt_false_iff p).mpr hcon))
  unfold handle_click_grid
  rw [if_neg hnb, h3, if_neg (by simp), if_neg hw, h1, if_neg (by simp), h2,
    if_pos (by simp), if_neg hps]


/-! ## The reachable-state invariant -/

theorem good_init (walls : Int → Int → Bool) : GoodState (initialize_grid walls) := by
  refine ⟨?_, ?_, ?_, ?_, ?_, ?_⟩
  · intro hc
    exact Bool.noConfusion (show (false : Bool) = true from hc)
  · intro hc
    exact Bool.noConfusion (show (false : Bool) = true from hc)
  · intro hc
    exact Bool.noConfusion (show (false : Bool) = true from hc)
  · intro hc
    exact Bool.noConfusion (show (false : Bool) = true from hc)
  · intro _ x y
    rfl
  · intro x y _
    rfl

theorem good_reset (s : ProgState) (h : GoodState s) : GoodState (reset_grid s) := by
  refine ⟨?_, ?_, ?_, ?_, ?_, ?_⟩
  · intro hc
    exact Bool.noConfusion (show (false : Bool) = true from hc)
  · intro hc
    exact Bool.noConfusion (show (false : Bool) = true from hc)
  · intro hc
    exact Bool.noConfusion (show (false : Bool) = true from hc)
  · intro hc
    exact Bool.noConfusion (show (false : Bool) = true from hc)
  · intro _ x y
    show (if inBoundsXY x y = true then CELL_EMPTY else s.gridPathType x y) = CELL_EMPTY
    split_ifs with hb
    · rfl
    · refine h.oobF x y ?_
      cases hx : inBoundsXY x y
      · rfl
      · exact absurd hx hb
  · intro x y hxy
    show (if inBoundsXY x y = true then CELL_EMPTY else s.gridPathType x y) = CELL_EMPTY
    rw [hxy, if_neg (by simp)]
    exact h.oobF x y hxy

theorem good_after_run (s : ProgState) (p : Point) (h : GoodState s)
    (hpf : s.paths_found_and_drawn = false) (hss : s.start_selected = true)
    (hoob : ¬(p.x < 0 ∨ p.x ≥ GRID_WIDTH ∨ p.y < 0 ∨ p.y ≥ GRID_HEIGHT))
    (hw : ¬(s.grid p.x p.y = CELL_WALL)) (hps : ¬(p = s.start)) (n i : Nat) :
    GoodState (run_paths n i { s with end_ := p, grid := upd2 s.grid p CELL_END,
                                      end_selected := true,
                                      paths_found_and_drawn := true }).1 := by
  obtain ⟨hbs, hgs, hts⟩ := h.startA hss
  set s' : ProgState := { s with end_ := p, grid := upd2 s.grid p CELL_END,
                                 end_selected := true,
                                 paths_found_and_drawn := true } with hs'
  have hne : ¬(s.start.x = p.x ∧ s.start.y = p.y) := fun hc => hps (point_eq_iff.mpr hc).symm
  have hv' : is_valid_position s' s.start.x s.start.y = true := by
    refine (validPt_iff s' s.start).mpr ⟨hbs, ?_, hts⟩
    show upd2 s.grid p CELL_END s.start.x s.start.y ≠ CELL_WALL
    unfold upd2
    rw [if_neg hne, hgs]
    decide
  have hbe' : inBoundsPt s'.end_ = true := inBounds_of_not_oob hoob
  obtain ⟨hRg, hRs, hRe, hRss, hRes, hRpf⟩ := run_paths_proj n i s'
  refine ⟨?_, ?_, ?_, ?_, ?_, ?_⟩
  · intro _
    refine ⟨?_, ?_, ?_⟩
    · rw [hRs]
      exact hbs
    · rw [hRg, hRs]
      show upd2 s.grid p CELL_END s.start.x s.start.y = CELL_START
      unfold upd2
      rw [if_neg hne]
      exact hgs
    · rw [hRs, run_paths_pathtype_start n i s']
      exact hts
  · intro _
    rw [hRe, run_paths_pathtype_end n i s']
    exact h.clearE hpf p.x p.y
  · intro _
    rw [hRes]
  · intro _
    rw [hRss]
    exact hss
  · intro hpa
    rw [hRpf] at hpa
    exact absurd (show (true : Bool) = false from hpa) (by simp)
  · intro x y hxy
    rw [run_paths_pathtype_oob n i s' hv' hbe' x y hxy]
    exact h.clearE hpf x y

theorem good_click (s : ProgState) (p : Point) (h : GoodState s) :
    GoodState (handle_click_grid s p).1 := by
  unfold handle_click_grid
  split_ifs with g1 g2 g3 g4 g5 g6
  · exact h
  · exact h
  · exact h
  · have hpf : s.paths_found_and_drawn = false := by
      cases hb : s.paths_found_and_drawn
      · rfl
      · exact absurd hb g2
    have hss : s.start_selected = false := by
      cases hb : s.start_selected
      · rfl
      · rw [hb] at g4
        exact absurd g4 (by simp)
    refine ⟨?_, ?_, ?_, ?_, ?_, ?_⟩
    · intro _
      refine ⟨inBounds_of_not_oob g1, ?_, h.clearE hpf p.x p.y⟩
      show upd2 s.grid p CELL_START p.x p.y = CELL_START
      unfold upd2
      rw [if_pos ⟨rfl, rfl⟩]
    · show s.end_selected = true → s.gridPathType s.end_.x s.end_.y = CELL_EMPTY
      intro he
      exact absurd (h.flagD he) (by simp [hss])
    · show s.paths_found_and_drawn = true → s.end_selected = true
      intro hp
      exact absurd hp (by simp [hpf])
    · intro _
      rfl
    · intro _ x y
      exact h.clearE hpf x y
    · intro x y hxy
      exact h.oobF x y hxy
  · exact h
  · have hpf : s.paths_found_and_drawn = false := by
      cases hb : s.paths_found_and_drawn
      · rfl
      · exact absurd hb g2
    have hss : s.start_selected = true := by
      cases hb : s.start_selected
      · rw [hb] at g4
        exact absurd rfl g4
      · rfl
    exact good_after_run s p h hpf hss g1 g3 g6 K_PATHS 0
  · exact h

theorem reachable_good (s : ProgState) (h : Reachable s) : GoodState s := by
  induction h with
  | init walls => exact good_init walls
  | click s p _ ih => exact good_click s p ih
  | reset s _ ih => exact good_reset s ih

/-! ## Claims about End designation and the reachable invariant -/

/-- C8 (corrected): in a state awaiting the End click (Start designated, End
not yet, no paths drawn), End designation fails iff the clicked point is out of
bounds, a Wall cell, or equals Start — the Wall case is missing from the
claim's list; on any rejected designation the state is returned unchanged with
no paths, so no search runs. -/
theorem claim_c8_end_designation (s : ProgState) (p : Point)
    (h1 : s.start_selected = true) (h2 : s.end_selected = false)
    (h3 : s.paths_found_and_drawn = false) :
    ((handle_click_grid s p).1.end_selected = false ↔
      (inBoundsPt p = false ∨ s.grid p.x p.y = CELL_WALL ∨ p = s.start)) ∧
    ((inBoundsPt p = false ∨ s.grid p.x p.y = CELL_WALL ∨ p = s.start) →
      handle_click_grid s p = (s, [])) := by
  refine ⟨⟨?_, ?_⟩, fun hc => handle_click_fail_eq s p h1 h2 h3 hc⟩
  · intro hfe
    by_contra hno
    push_neg at hno
    obtain ⟨hb, hw, hps⟩ := hno
    have hb' : inBoundsPt p = true := by
      cases hx : inBoundsPt p
      · exact absurd hx hb
      · rfl
    rw [handle_click_success_eq s p h1 h2 h3 hb' hw hps] at hfe
    rw [(run_paths_proj K_PATHS 0 _).2.2.2.2.1] at hfe
    exact Bool.noConfusion (show (true : Bool) = false from hfe)
  · intro hc
    rw [handle_click_fail_eq s p h1 h2 h3 hc]
    exact h2

/-- The original C8 iff is refuted at the awaiting-End state `sAwait`: the
click at the in-bounds Wall cell `(1,1)` (distinct from Start, End not yet
designated) is rejected, though none of the claim's three conditions holds. -/
theorem claim_c8_counterexample :
    ¬ (((handle_click_grid sAwait ⟨1, 1⟩).1.end_selected = false) →
        ((⟨1, 1⟩ : Point) = sAwait.start ∨ inBoundsPt ⟨1, 1⟩ = false ∨
          sAwait.end_selected = true)) := by
  decide

/-- Witness for C8 at `sAwait`, clicking the Wall cell `(1,1)`. -/
theorem claim_c8_witness :
    sAwait.start_selected = true ∧ sAwait.end_selected = false ∧
    sAwait.paths_found_and_drawn = false ∧
    (((handle_click_grid sAwait ⟨1, 1⟩).1.end_selected = false ↔
        (inBoundsPt ⟨1, 1⟩ = false ∨ sAwait.grid 1 1 = CELL_WALL ∨
          (⟨1, 1⟩ : Point) = sAwait.start)) ∧
      ((inBoundsPt ⟨1, 1⟩ = false ∨ sAwait.grid 1 1 = CELL_WALL ∨
          (⟨1, 1⟩ : Point) = sAwait.start) →
        handle_click_grid sAwait ⟨1, 1⟩ = (sAwait, []))) :=
  ⟨rfl, rfl, rfl, claim_c8_end_designation sAwait ⟨1, 1⟩ rfl rfl rfl⟩

/-- C10: in every state reachable through the public interface the designated
Start and End cells carry no rank label, and whenever the orchestrator fires
(the End click on an awaiting state), every one of its searches runs on a state
whose source is a valid position — so the source-blocked guard of
`dijkstra_find_path` evaluates to false there and its failure branch is never
taken from the public interface. -/
theorem claim_c10_endpoints_unranked (s : ProgState) (h : Reachable s) :
    (s.start_selected = true → s.gridPathType s.start.x s.start.y = CELL_EMPTY) ∧
    (s.end_selected = true → s.gridPathType s.end_.x s.end_.y = CELL_EMPTY) ∧
    (∀ p : Point, s.start_selected = true → s.end_selected = false →
      s.paths_found_and_drawn = false →
      ¬(p.x < 0 ∨ p.x ≥ GRID_WIDTH ∨ p.y < 0 ∨ p.y ≥ GRID_HEIGHT) →
      s.grid p.x p.y ≠ CELL_WALL → p ≠ s.start →
      ∀ n i : Nat, ∀ t : ProgState,
        t = (run_paths n i { s with end_ := p, grid := upd2 s.grid p CELL_END,
                                    end_selected := true,
                                    paths_found_and_drawn := true }).1 →
        is_valid_position t t.start.x t.start.y = true ∧
        (!(is_valid_position t t.start.x t.start.y) &&
          !(!(is_valid_position t t.end_.x t.end_.y) &&
            decide (t.gridPathType t.end_.x t.end_.y ≠ CELL_EMPTY))) = false) := by
  have hg := reachable_good s h
  refine ⟨fun hs => (hg.startA hs).2.2, hg.endB, ?_⟩
  intro p hs1 _ _ hoob hwall hps n i t ht
  set s' : ProgState := { s with end_ := p, grid := upd2 s.grid p CELL_END,
                                 end_selected := true,
                                 paths_found_and_drawn := true } with hs'
  obtain ⟨hbs, hgs, hts⟩ := hg.startA hs1
  have hne : ¬(s.start.x = p.x ∧ s.start.y = p.y) := fun hc => hps (point_eq_iff.mpr hc).symm
  have hv' : is_valid_position s' s.start.x s.start.y = true := by
    refine (validPt_iff s' s.start).mpr ⟨hbs, ?_, hts⟩
    show upd2 s.grid p CELL_END s.start.x s.start.y ≠ CELL_WALL
    unfold upd2
    rw [if_neg hne, hgs]
    decide
  have hvr := run_paths_validStart n i s' hv'
  have hstart : t.start = s.start := by
    rw [ht]
    exact (run_paths_proj n i s').2.1
  have hvt : is_valid_position t t.start.x t.start.y = true := by
    rw [hstart, ht]
    exact hvr
  refine ⟨hvt, ?_⟩
  rw [hvt]
  rfl

/-- Witness for C10: the state after a Start click on the all-free grid is
reachable, its Start cell is unranked, and after an End click at `(2,0)` the
state of the second orchestrator search still has a valid source. -/
theorem claim_c10_witness :
    sClicked.start_selected = true ∧
    sClicked.gridPathType sClicked.start.x sClicked.start.y = CELL_EMPTY ∧
    is_valid_position (run_paths 1 0 sEndClicked).1
      (run_paths 1 0 sEndClicked).1.start.x
      (run_paths 1 0 sEndClicked).1.start.y = true :=
  ⟨by decide,
   (claim_c10_endpoints_unranked sClicked
      (Reachable.click (initialize_grid walls0) ⟨0, 0⟩ (Reachable.init walls0))).1
     (by decide),
   ((claim_c10_endpoints_unranked sClicked
      (Reachable.click (initialize_grid walls0) ⟨0, 0⟩ (Reachable.init walls0))).2.2
     ⟨2, 0⟩ (by decide) (by decide) (by decide) (by decide) (by decide) (by decide)
     1 0 (run_paths 1 0 sEndClicked).1 rfl).1⟩

end SPV
